import Mathlib

/-!
Verification development for the bank-notification ingestion pipeline of
the BudgetApp repository.  The embedded code is the most capable variant of
the `process-transaction` route (src/unnamed/part_005, lines 271-754):
`getToEgpRate`, `parseChargedAmount`, `parseMerchant`, `parseCardLast4`,
`parseMessageTimestamp`, `isLikelyTransferMessage`, and `handleMessage`.

Embedding conventions:
- JavaScript numbers are modelled as exact rationals (`ℚ`); `toFixed(2)`
  followed by `Number(...)` is modelled as rounding to 2 decimal places.
- JavaScript regexes are modelled as explicit character-list scanners with
  the same leftmost-match, alternation-order, greedy/lazy semantics; each
  scanner's doc comment names the source regex it embeds.
- Effectful collaborators (FX fetch, AI oracle, Supabase query/insert) are
  modelled as explicit inputs in an `Env` record; the module-level FX cache
  is explicit state threaded through `getToEgpRate`.
-/

namespace BudgetApp

/-! ### Character classes (JS regex semantics, ASCII) -/

/-- JS regex `\d`. -/
def isDigitC (c : Char) : Bool := 48 ≤ c.toNat && c.toNat ≤ 57

/-- JS regex `\w` (ASCII word character, the class used by `\b`). -/
def isWordC (c : Char) : Bool :=
  (48 ≤ c.toNat && c.toNat ≤ 57) || (65 ≤ c.toNat && c.toNat ≤ 90) ||
  (97 ≤ c.toNat && c.toNat ≤ 122) || c = '_'

/-- JS regex `\s` (the whitespace forms that occur in bank messages). -/
def isSpaceC (c : Char) : Bool := c = ' ' || c = '\t' || c = '\n' || c = '\r'

/-- JS regex `.` matches everything except line terminators. -/
def dotOk (c : Char) : Bool := c ≠ '\n' && c ≠ '\r'

/-- ASCII lower-casing, as used by the `/i` flag and `toLowerCase()` on the
ASCII letters occurring in the source patterns. -/
def asciiLower (c : Char) : Char :=
  if 65 ≤ c.toNat ∧ c.toNat ≤ 90 then Char.ofNat (c.toNat + 32) else c

/-- Case-insensitive character comparison for the `/i` regex flag. -/
def lowerEq (c d : Char) : Bool := asciiLower c = asciiLower d

/-! ### Core matcher combinators -/

/-- Match a literal pattern case-insensitively; return the rest of the input. -/
def matchCI : List Char → List Char → Option (List Char)
  | [], l => some l
  | _ :: _, [] => none
  | p :: ps, c :: cs => if lowerEq c p then matchCI ps cs else none

/-- Match a literal pattern exactly; return the rest of the input. -/
def matchLit : List Char → List Char → Option (List Char)
  | [], l => some l
  | _ :: _, [] => none
  | p :: ps, c :: cs => if c = p then matchLit ps cs else none

/-- JS regex `\s*` (greedy, forced maximal: what follows is never whitespace). -/
def dropSpaces : List Char → List Char
  | c :: cs => if isSpaceC c then dropSpaces cs else c :: cs
  | [] => []

/-- JS regex `\s+` in positions where the continuation cannot begin with
whitespace, so the maximal run is forced. -/
def matchSpaces1 : List Char → Option (List Char)
  | c :: cs => if isSpaceC c then some (dropSpaces cs) else none
  | [] => none

/-- Span by a character predicate (own definition for stable lemmas). -/
def spanP (p : Char → Bool) : List Char → List Char × List Char
  | [] => ([], [])
  | c :: cs => if p c then ((c :: (spanP p cs).1), (spanP p cs).2) else ([], c :: cs)

/-- JS `String.prototype.trim()` on a character list. -/
def trimChars (l : List Char) : List Char :=
  ((l.dropWhile isSpaceC).reverse.dropWhile isSpaceC).reverse

/-- JS `String.prototype.trim()`. -/
def trimS (l : List Char) : String := String.mk (trimChars l)

/-- Leftmost-match search: try the step function at every start position. -/
def findMap (f : List Char → Option α) : List Char → Option α
  | [] => f []
  | c :: cs =>
    match f (c :: cs) with
    | some v => some v
    | none => findMap f cs

/-- Leftmost-match search carrying the previous character, for patterns that
begin with a word boundary `\b`. -/
def findMapB (f : Option Char → List Char → Option α) : Option Char → List Char → Option α
  | prev, [] => f prev []
  | prev, c :: cs =>
    match f prev (c :: cs) with
    | some v => some v
    | none => findMapB f (some c) cs

/-- Lazy capture `(.+?)` followed by a terminator test: the shortest capture
of at least one `.`-matchable character after which `tail` holds. -/
def lazyCap (tail : List Char → Bool) : List Char → Option (List Char)
  | [] => none
  | c :: cs =>
    if dotOk c then
      if tail cs then some [c]
      else (lazyCap tail cs).map (c :: ·)
    else none

/-- JS regex `\s+` immediately followed by a sub-pattern that may itself
consume whitespace (via `.`): greedy, with backtracking to shorter runs. -/
def spacesThen (cont : List Char → Option α) : List Char → Option α
  | c :: cs =>
    if isSpaceC c then
      match spacesThen cont cs with
      | some v => some v
      | none => cont cs
    else none
  | [] => none

/-! ### Numeric parsing (JS `Number` on the captured amount strings) -/

/-- Decimal digits to a natural number (`Number` on a digit string; the empty
string yields 0, matching `Number('')`). -/
def digitsToNat (l : List Char) : Nat :=
  l.foldl (fun n c => 10 * n + (c.toNat - 48)) 0

/-- JS `Number(capture.replace(/,/g, ''))` for a capture of shape
`[\d,]+(\.\d+)?`, as exact rational arithmetic. -/
def amountToRat (capture : List Char) : ℚ :=
  let l := capture.filter (fun c => c ≠ ',')
  let intPart := l.takeWhile (fun c => c ≠ '.')
  let fracPart := (l.dropWhile (fun c => c ≠ '.')).drop 1
  (digitsToNat intPart : ℚ) + (digitsToNat fracPart : ℚ) / ((10 : ℚ) ^ fracPart.length)

/-! ### Currency model -/

/-- The closed currency enumeration `type SupportedCurrency = 'EGP' | 'USD' | 'EUR'`. -/
inductive SupportedCurrency
  | EGP
  | USD
  | EUR
deriving DecidableEq, Repr

/-- The capture group `(EGP|USD|EUR|€)` under `/i`, already normalized as the
source does with `raw === '€' ? 'EUR' : raw` after upper-casing. -/
def matchCurrency (l : List Char) : Option (SupportedCurrency × List Char) :=
  match matchCI ['e', 'g', 'p'] l with
  | some r => some (.EGP, r)
  | none =>
    match matchCI ['u', 's', 'd'] l with
    | some r => some (.USD, r)
    | none =>
      match matchCI ['e', 'u', 'r'] l with
      | some r => some (.EUR, r)
      | none =>
        match matchLit ['€'] l with
        | some r => some (.EUR, r)
        | none => none

/-! ### parseCardLast4 (part_005 lines 395-409) -/

/-- Four digits followed by a word boundary, the `(\d{4})\b` tail shared by
the card-suffix patterns. -/
def fourDigitsB (l : List Char) : Option String :=
  match l with
  | a :: b :: c :: d :: tail =>
    if isDigitC a && isDigitC b && isDigitC c && isDigitC d &&
        (match tail with | [] => true | e :: _ => !isWordC e) then
      some (String.mk [a, b, c, d])
    else none
  | _ => none

/-- One attempt of `/#(\d{4})\b/` at the current position. -/
def hashCardAt (l : List Char) : Option String :=
  match l with
  | ch :: rest => if ch = '#' then fourDigitsB rest else none
  | [] => none

/-- One attempt of `/\*{2,}\s*(\d{4})\b/` at the current position (the star
run is forced maximal because neither `\s*` nor `\d` matches `*`). -/
def maskedCardAt (l : List Char) : Option String :=
  match l with
  | '*' :: '*' :: rest => fourDigitsB (dropSpaces (rest.dropWhile (· = '*')))
  | _ => none

/-- One attempt of `/المنتهي(?:ة)?\s*ب(?:ـ)?\s*(\d{4})\b/i` at the current
position.  The optional `ة` and `ـ` are forced: if taken wrongly the
continuation fails either way. -/
def endingCardAt (l : List Char) : Option String :=
  match matchLit ['ا', 'ل', 'م', 'ن', 'ت', 'ه', 'ي'] l with
  | none => none
  | some r =>
    let r1 := match r with | 'ة' :: t => t | _ => r
    match dropSpaces r1 with
    | 'ب' :: r2 =>
      let r3 := match r2 with | 'ـ' :: t => t | _ => r2
      fourDigitsB (dropSpaces r3)
    | _ => none

/-- Source `parseCardLast4`: `#NNNN`, then masked `**NNNN`, then the Arabic
"ending in NNNN" phrase, each searched leftmost. -/
def parseCardLast4 (s : String) : Option String :=
  match findMap hashCardAt s.data with
  | some v => some v
  | none =>
    match findMap maskedCardAt s.data with
    | some v => some v
    | none => findMap endingCardAt s.data

/-! ### parseChargedAmount (part_005 lines 322-356) -/

/-- The amount capture `([\d,]+(?:\.\d+)?)` (greedy; the optional fraction is
taken exactly when a `.` directly followed by a digit is present). -/
def matchAmount (l : List Char) : Option (List Char × List Char) :=
  let p := spanP (fun c => isDigitC c || c = ',') l
  if p.1 = [] then none
  else
    match p.2 with
    | '.' :: r2 =>
      let q := spanP isDigitC r2
      if q.1 = [] then some (p.1, p.2) else some (p.1 ++ '.' :: q.1, q.2)
    | _ => some (p.1, p.2)

/-- Shared continuation `\s+(EGP|USD|EUR|€)\s*([\d,]+(?:\.\d+)?)` of the
primary charged-amount regex.  The trailing
`(?:\s+has\s+been\s+(?:debited|credited))?` of the source regex binds no
capture and, being optional, never affects whether the match succeeds, so it
is not represented.  `Number.isFinite(amount)` is always true in the exact
rational model, so the source's finiteness guard is not represented either. -/
def chargedCont (r : List Char) : Option (SupportedCurrency × ℚ) :=
  match matchSpaces1 r with
  | none => none
  | some r1 =>
    match matchCurrency r1 with
    | none => none
    | some (cur, r2) =>
      match matchAmount (dropSpaces r2) with
      | none => none
      | some (cap, _) => some (cur, amountToRat cap)

/-- The greedy optional `(?:\s+for)?` of the primary pattern, taken
together with everything after it: the continuation after consuming
`\s+for`. -/
def chargedWithFor (r : List Char) : Option (SupportedCurrency × ℚ) :=
  match matchSpaces1 r with
  | some r2 =>
    match matchCI ['f', 'o', 'r'] r2 with
    | some r3 => chargedCont r3
    | none => none
  | none => none

/-- One attempt of
`/(?:charged(?:\s+for)?|of)\s+(EGP|USD|EUR|€)\s*([\d,]+(?:\.\d+)?)/i`
at the current position, with the greedy optional `(?:\s+for)?` tried first
and backtracked on failure of the continuation. -/
def chargedAt (l : List Char) : Option (SupportedCurrency × ℚ) :=
  match matchCI ['c', 'h', 'a', 'r', 'g', 'e', 'd'] l with
  | some r =>
    match chargedWithFor r with
    | some v => some v
    | none => chargedCont r
  | none =>
    match matchCI ['o', 'f'] l with
    | some r => chargedCont r
    | none => none

/-- The alternation `(?:مبلغ|بمبلغ)` (tried in source order). -/
def amountWordAt (l : List Char) : Option (List Char) :=
  match matchLit ['م', 'ب', 'ل', 'غ'] l with
  | some r => some r
  | none => matchLit ['ب', 'م', 'ب', 'ل', 'غ'] l

/-- One attempt of `/(?:مبلغ|بمبلغ)\s*(EGP|USD|EUR|€)\s*([\d,]+(?:\.\d+)?)/i`. -/
def arabic1At (l : List Char) : Option (SupportedCurrency × ℚ) :=
  match amountWordAt l with
  | none => none
  | some r =>
    match matchCurrency (dropSpaces r) with
    | none => none
    | some (cur, r2) =>
      match matchAmount (dropSpaces r2) with
      | none => none
      | some (cap, _) => some (cur, amountToRat cap)

/-- The Egyptian-pound word alternation `(?:ج\.?\s*م|جنيه(?:\s*مصري)?|EGP)`
(success only matters; the optional `\s*مصري` tail never fails). -/
def egpWordAt (l : List Char) : Bool :=
  (match matchLit ['ج'] l with
   | some r =>
     (match r with
      | '.' :: t => (matchLit ['م'] (dropSpaces t)).isSome
      | _ => false) ||
     (matchLit ['م'] (dropSpaces r)).isSome
   | none => false) ||
  (matchLit ['ج', 'ن', 'ي', 'ه'] l).isSome ||
  (matchCI ['e', 'g', 'p'] l).isSome

/-- One attempt of
`/(?:مبلغ|بمبلغ)\s*([\d,]+(?:\.\d+)?)\s*(?:ج\.?\s*م|جنيه(?:\s*مصري)?|EGP)/i`
(defaults the currency to EGP). -/
def arabic2At (l : List Char) : Option (SupportedCurrency × ℚ) :=
  match amountWordAt l with
  | none => none
  | some r =>
    match matchAmount (dropSpaces r) with
    | none => none
    | some (cap, r2) =>
      if egpWordAt (dropSpaces r2) then some (.EGP, amountToRat cap) else none

/-- Source `parseChargedAmount`: the verb-anchored English pattern, then the
two Arabic amount patterns, each searched leftmost, in source order. -/
def parseChargedAmount (s : String) : Option (SupportedCurrency × ℚ) :=
  match findMap chargedAt s.data with
  | some v => some v
  | none =>
    match findMap arabic1At s.data with
    | some v => some v
    | none => findMap arabic2At s.data

/-! ### parseMerchant (part_005 lines 358-393) -/

/-- A date separator `[\/\-]`. -/
def matchDateSep : List Char → Option (List Char)
  | c :: t => if c = '/' ∨ c = '-' then some t else none
  | [] => none

/-- `\d{1,2}` directly followed by `[\/\-]` (greedy on the digits; a third
digit can never be absorbed by the separator, so two then one is exact). -/
def matchD12Sep (l : List Char) : Option (List Char) :=
  match l with
  | a :: b :: rest =>
    if isDigitC a then
      if isDigitC b then matchDateSep rest else matchDateSep (b :: rest)
    else none
  | _ => none

/-- `\d{2,4}\b`: since every digit is a word character, the greedy counted
repetition succeeds exactly when the maximal digit run has length 2 to 4 and
the following character (if any) is not a word character. -/
def matchYearB (l : List Char) : Bool :=
  let p := spanP isDigitC l
  (2 ≤ p.1.length && p.1.length ≤ 4) &&
    (match p.2 with | [] => true | c :: _ => !isWordC c)

/-- `\d{1,2}[\/\-]\d{1,2}[\/\-]\d{2,4}\b` (the dated tail of the English
"at MERCHANT on DATE" pattern). -/
def matchDateB (l : List Char) : Bool :=
  match matchD12Sep l with
  | none => false
  | some r =>
    match matchD12Sep r with
    | none => false
    | some r2 => matchYearB r2

/-- `\d{1,2}[\/\-]\d{1,2}[\/\-]\d{2,4}` with nothing after it in the regex:
only two digits of the year need to exist. -/
def matchDateNB (l : List Char) : Bool :=
  match matchD12Sep l with
  | none => false
  | some r =>
    match matchD12Sep r with
    | none => false
    | some r2 =>
      match r2 with
      | a :: b :: _ => isDigitC a && isDigitC b
      | _ => false

/-- Terminator `\s+on\s+\d{1,2}[\/\-]\d{1,2}[\/\-]\d{2,4}\b` of the lazy
merchant capture in the "on DATE" pattern. -/
def onTail (l : List Char) : Bool :=
  match matchSpaces1 l with
  | none => false
  | some r =>
    match matchCI ['o', 'n'] r with
    | none => false
    | some r2 =>
      match matchSpaces1 r2 with
      | none => false
      | some r3 => matchDateB r3

/-- Whether the previous character blocks a leading `\b` before a word
character (start of input does not). -/
def prevIsWord : Option Char → Bool
  | none => false
  | some p => isWordC p

/-- One attempt of `/\bat\s+(.+?)\s+on\s+\d{1,2}[\/\-]\d{1,2}[\/\-]\d{2,4}\b/i`
at the current position. -/
def onDateAt (prev : Option Char) (l : List Char) : Option (List Char) :=
  if prevIsWord prev then none
  else
    match matchCI ['a', 't'] l with
    | none => none
    | some r => spacesThen (lazyCap onTail) r

/-- A literal colon. -/
def matchColon : List Char → Option (List Char)
  | c :: t => if c = ':' then some t else none
  | [] => none

/-- `\d{1,2}:` (greedy digits against the colon). -/
def matchD12Colon (l : List Char) : Option (List Char) :=
  match l with
  | a :: b :: rest =>
    if isDigitC a then
      if isDigitC b then matchColon rest
      else matchColon (b :: rest)
    else none
  | _ => none

/-- `\d{2}\b` (exactly two digits then a word boundary). -/
def matchMin2B (l : List Char) : Bool :=
  match l with
  | a :: b :: rest =>
    isDigitC a && isDigitC b && (match rest with | [] => true | c :: _ => !isWordC c)
  | _ => false

/-- Terminator alternative `\s+at\s+\d{1,2}:\d{2}\b` of the fallback merchant
pattern. -/
def timeStopTail (l : List Char) : Bool :=
  match matchSpaces1 l with
  | none => false
  | some r =>
    match matchCI ['a', 't'] r with
    | none => false
    | some r2 =>
      match matchSpaces1 r2 with
      | none => false
      | some r3 =>
        match matchD12Colon r3 with
        | none => false
        | some r4 => matchMin2B r4

/-- The terminator alternatives `\.` and `$`. -/
def dotOrEnd : List Char → Bool
  | [] => true
  | c :: _ => c = '.'

/-- Terminator alternation `(?:\s+at\s+\d{1,2}:\d{2}\b|\.|$)` of the fallback
merchant pattern (which alternative fires does not affect the capture). -/
def fallbackTail (l : List Char) : Bool :=
  timeStopTail l || dotOrEnd l

/-- One attempt of `/\bat\s+(.+?)(?:\s+at\s+\d{1,2}:\d{2}\b|\.|$)/i` at the
current position. -/
def fallbackAt (prev : Option Char) (l : List Char) : Option (List Char) :=
  if prevIsWord prev then none
  else
    match matchCI ['a', 't'] l with
    | none => none
    | some r => spacesThen (lazyCap fallbackTail) r

/-- Terminator `\s+في\s+\d{1,2}[\/\-]\d{1,2}[\/\-]\d{2,4}` of the Arabic
merchant captures. -/
def fiDateTail (l : List Char) : Bool :=
  match matchSpaces1 l with
  | none => false
  | some r =>
    match matchLit ['ف', 'ي'] r with
    | none => false
    | some r2 =>
      match matchSpaces1 r2 with
      | none => false
      | some r3 => matchDateNB r3

/-- One attempt of `/عند\s+(.+?)\s+في\s+\d{1,2}[\/\-]\d{1,2}[\/\-]\d{2,4}/i`. -/
def arabicAtAt (l : List Char) : Option (List Char) :=
  match matchLit ['ع', 'ن', 'د'] l with
  | none => none
  | some r => spacesThen (lazyCap fiDateTail) r

/-- `\*{0,4}` directly followed by digits (the stars are forced). -/
def starsUpTo4 (l : List Char) : List Char :=
  match l with
  | '*' :: r1 =>
    match r1 with
    | '*' :: r2 =>
      match r2 with
      | '*' :: r3 => (match r3 with | '*' :: r4 => r4 | _ => r3)
      | _ => r2
    | _ => r1
  | _ => l

/-- `\d{4}` directly followed by `\s+` (no boundary; a fifth digit simply
fails the continuation). -/
def match4Digits (l : List Char) : Option (List Char) :=
  match l with
  | a :: b :: c :: d :: rest =>
    if isDigitC a && isDigitC b && isDigitC c && isDigitC d then some rest else none
  | _ => none

/-- One attempt of
`/المنتهي(?:ة)?\s*ب(?:ـ)?\s*\*{0,4}\d{4}\s+من\s+(.+?)\s+في\s+\d{1,2}[\/\-]\d{1,2}[\/\-]\d{2,4}/i`. -/
def arabicAfterCardAt (l : List Char) : Option (List Char) :=
  match matchLit ['ا', 'ل', 'م', 'ن', 'ت', 'ه', 'ي'] l with
  | none => none
  | some r =>
    let r1 := match r with | 'ة' :: t => t | _ => r
    match dropSpaces r1 with
    | 'ب' :: r2 =>
      let r3 := match r2 with | 'ـ' :: t => t | _ => r2
      match match4Digits (starsUpTo4 (dropSpaces r3)) with
      | none => none
      | some r4 =>
        spacesThen (fun r5 =>
          match matchLit ['م', 'ن'] r5 with
          | none => none
          | some r6 => spacesThen (lazyCap fiDateTail) r6) r4
    | _ => none

/-- One attempt of `/من\s+(.+?)\s+في\s+\d{1,2}[\/\-]\d{1,2}[\/\-]\d{2,4}/i`. -/
def arabicFromAt (l : List Char) : Option (List Char) :=
  match matchLit ['م', 'ن'] l with
  | none => none
  | some r => spacesThen (lazyCap fiDateTail) r

/-- One attempt of the separator regex `\s+من\s+` used by the repair step's
`split`/`test`. -/
def minSepAt (l : List Char) : Option (List Char) :=
  match matchSpaces1 l with
  | none => none
  | some r =>
    match matchLit ['م', 'ن'] r with
    | none => none
    | some r2 => matchSpaces1 r2

/-- JS `captured.split(/\s+من\s+/i)` (fuel-driven; each separator consumes at
least four characters, so fuel `l.length` always suffices). -/
def splitMinSepF : Nat → List Char → List Char → List (List Char)
  | 0, acc, l => [acc.reverse ++ l]
  | _ + 1, acc, [] => [acc.reverse]
  | fuel + 1, acc, c :: cs =>
    match minSepAt (c :: cs) with
    | some rest => acc.reverse :: splitMinSepF fuel [] rest
    | none => splitMinSepF fuel (c :: acc) cs

/-- The repair test `/بطاقة|المنتهي(?:ة)?\s*ب/i.test(captured)`. -/
def cardWordTest (l : List Char) : Bool :=
  (findMap (fun t => matchLit ['ب', 'ط', 'ا', 'ق', 'ة'] t) l).isSome ||
  (findMap (fun t =>
      match matchLit ['ا', 'ل', 'م', 'ن', 'ت', 'ه', 'ي'] t with
      | none => none
      | some r =>
        let r1 := match r with | 'ة' :: u => u | _ => r
        match dropSpaces r1 with
        | 'ب' :: u => some u
        | _ => none) l).isSome

/-- The repair step applied to the trimmed generic-Arabic capture: if it still
contains card wording and an inner `من`, keep only the final nonempty trimmed
segment after splitting on `\s+من\s+`. -/
def repairCapture (captured : List Char) : String :=
  if cardWordTest captured && (findMap minSepAt captured).isSome then
    match (((splitMinSepF captured.length [] captured).map trimChars).filter
        (fun seg => seg ≠ [])).getLast? with
    | some seg => String.mk seg
    | none => String.mk captured
  else String.mk captured

/-- Source `parseMerchant`: the five patterns in source order, each searched
leftmost; every successful capture has at least one character and is
therefore truthy, so each branch returns its trimmed capture. -/
def parseMerchant (s : String) : Option String :=
  match findMapB onDateAt none s.data with
  | some cap => some (trimS cap)
  | none =>
    match findMapB fallbackAt none s.data with
    | some cap => some (trimS cap)
    | none =>
      match findMap arabicAtAt s.data with
      | some cap => some (trimS cap)
      | none =>
        match findMap arabicAfterCardAt s.data with
        | some cap => some (trimS cap)
        | none =>
          match findMap arabicFromAt s.data with
          | some cap => some (repairCapture (trimChars cap))
          | none => none

/-! ### parseMessageTimestamp (part_005 lines 411-456) -/

/-- The six capture groups of the timestamp regex, before any validation. -/
structure TSCaps where
  day : Nat
  month : Nat
  rawYear : Nat
  hour : Nat
  minute : Nat
  /-- `none` when the optional suffix is absent, `some true` for PM. -/
  pm : Option Bool
deriving DecidableEq, Repr

/-- Capture `(\d{1,2})` directly followed by `[\/\-]`. -/
def capD12Sep (l : List Char) : Option (Nat × List Char) :=
  match l with
  | a :: b :: rest =>
    if isDigitC a then
      if isDigitC b then (matchDateSep rest).map (fun r => (digitsToNat [a, b], r))
      else (matchDateSep (b :: rest)).map (fun r => (digitsToNat [a], r))
    else none
  | _ => none

/-- Capture `(\d{2,4})` directly followed by `(?:\s+|T)`: since digits are
neither whitespace nor `T`/`t`, the greedy repetition takes the whole digit
run, which must have length 2 to 4. -/
def capYear (l : List Char) : Option (Nat × List Char) :=
  let p := spanP isDigitC l
  if 2 ≤ p.1.length && p.1.length ≤ 4 then some (digitsToNat p.1, p.2) else none

/-- The separator `(?:\s+|T)` under `/i`. -/
def sepST (l : List Char) : Option (List Char) :=
  match l with
  | c :: cs =>
    if isSpaceC c then some (dropSpaces cs)
    else if c = 'T' || c = 't' then some cs
    else none
  | [] => none

/-- Capture `(\d{1,2})` directly followed by `:`. -/
def capD12Colon (l : List Char) : Option (Nat × List Char) :=
  match l with
  | a :: b :: rest =>
    if isDigitC a then
      if isDigitC b then
        (match rest with | ':' :: t => some (digitsToNat [a, b], t) | _ => none)
      else
        (match b :: rest with | ':' :: t => some (digitsToNat [a], t) | _ => none)
    else none
  | _ => none

/-- Capture `(\d{2})` (exactly two digits, no boundary). -/
def capMin2 (l : List Char) : Option (Nat × List Char) :=
  match l with
  | a :: b :: rest => if isDigitC a && isDigitC b then some (digitsToNat [a, b], rest) else none
  | _ => none

/-- The optional suffix `(?:\s*(AM|PM))?` under `/i`. -/
def capAmPm (l : List Char) : Option Bool :=
  match matchCI ['a', 'm'] (dropSpaces l) with
  | some _ => some false
  | none =>
    match matchCI ['p', 'm'] (dropSpaces l) with
    | some _ => some true
    | none => none

/-- One attempt of the timestamp regex
`/(?:\bon\b|في)\s+(\d{1,2})[\/\-](\d{1,2})[\/\-](\d{2,4})(?:\s+|T)(\d{1,2}):(\d{2})(?:\s*(AM|PM))?/i`
at the current position.  The `\b` after `on` is subsumed by the mandatory
`\s+` that follows; the alternative `في` carries no boundary. -/
def tsAt (prev : Option Char) (l : List Char) : Option TSCaps :=
  let afterKw : Option (List Char) :=
    match (if prevIsWord prev then none else matchCI ['o', 'n'] l) with
    | some r => some r
    | none => matchLit ['ف', 'ي'] l
  match afterKw with
  | none => none
  | some r =>
    match matchSpaces1 r with
    | none => none
    | some r1 =>
      match capD12Sep r1 with
      | none => none
      | some (d, r2) =>
        match capD12Sep r2 with
        | none => none
        | some (mo, r3) =>
          match capYear r3 with
          | none => none
          | some (y, r4) =>
            match sepST r4 with
            | none => none
            | some r5 =>
              match capD12Colon r5 with
              | none => none
              | some (h, r6) =>
                match capMin2 r6 with
                | none => none
                | some (mi, r7) => some ⟨d, mo, y, h, mi, capAmPm r7⟩

/-- Leftmost match of the timestamp regex. -/
def matchTS (s : String) : Option TSCaps := findMapB tsAt none s.data

/-- Gregorian leap year. -/
def isLeap (y : Nat) : Bool := y % 4 = 0 && (y % 100 ≠ 0 || y % 400 = 0)

/-- Days in a month, for the `new Date(iso)` validity check. -/
def daysInMonth (y m : Nat) : Nat :=
  if m = 2 then (if isLeap y then 29 else 28)
  else if m = 4 || m = 6 || m = 9 || m = 11 then 30
  else 31

/-- `String(n).padStart(2, '0')`. -/
def pad2 (n : Nat) : String := if n < 10 then "0" ++ toString n else toString n

/-- The template literal building the fixed `+02:00` ISO string. -/
def isoString (y mo d h mi : Nat) : String :=
  toString y ++ "-" ++ pad2 mo ++ "-" ++ pad2 d ++ "T" ++ pad2 h ++ ":" ++ pad2 mi ++
    ":00+02:00"

/-- The validation and formatting of `parseMessageTimestamp` after the regex
match (source lines 420-455): 2-digit years become `2000 + year`, the
explicit range checks, the 12-hour adjustment, and the final
`Number.isNaN(new Date(iso).getTime())` guard, which for this string shape
rejects exactly a year that is not four digits wide or a day beyond the
month's length.  `Number.isFinite` on the captures is always true in the
model, where captures are naturals. -/
def buildTimestamp (c : TSCaps) : Option String :=
  let year := if c.rawYear < 100 then 2000 + c.rawYear else c.rawYear
  if c.month < 1 ∨ 12 < c.month ∨ c.day < 1 ∨ 31 < c.day ∨ 23 < c.hour ∨
      59 < c.minute then none
  else
    let hour :=
      if c.pm = some false ∧ c.hour = 12 then 0
      else if c.pm = some true ∧ c.hour < 12 then c.hour + 12
      else c.hour
    if 1000 ≤ year ∧ c.day ≤ daysInMonth year c.month then
      some (isoString year c.month c.day hour c.minute)
    else none

/-- Source `parseMessageTimestamp`. -/
def parseMessageTimestamp (s : String) : Option String :=
  (matchTS s).bind buildTimestamp

/-! ### isLikelyTransferMessage (part_005 lines 483-498) -/

/-- A test of `/\bW\b/i` where the pattern's first and last characters are
word characters (covers the multi-word patterns `sent to`, `received from`,
whose literal space matches itself). -/
def testWordCI (w : List Char) (s : String) : Bool :=
  (findMapB (fun prev l =>
    if prevIsWord prev then none
    else
      match matchCI w l with
      | none => none
      | some r =>
        match r with
        | [] => some ()
        | c :: _ => if isWordC c then none else some ()) none s.data).isSome

/-- A plain substring test (`/ipn/i`, `/تحويل/i` have no boundaries). -/
def testSubCI (w : List Char) (s : String) : Bool :=
  (findMap (fun l => (matchCI w l).map (fun _ => ())) s.data).isSome

/-- The check `/تحويل\s+لحظي/i`. -/
def testTahwilLahzi (s : String) : Bool :=
  (findMap (fun l =>
    match matchLit ['ت', 'ح', 'و', 'ي', 'ل'] l with
    | none => none
    | some r =>
      match matchSpaces1 r with
      | none => none
      | some r2 => matchLit ['ل', 'ح', 'ظ', 'ي'] r2) s.data).isSome

/-- The check `/\bcash ?out\b/i` (the optional character is a literal space). -/
def testCashOut (s : String) : Bool :=
  (findMapB (fun prev l =>
    if prevIsWord prev then none
    else
      match matchCI ['c', 'a', 's', 'h'] l with
      | none => none
      | some r =>
        let outB : List Char → Option Unit := fun r2 =>
          match matchCI ['o', 'u', 't'] r2 with
          | none => none
          | some rest =>
            match rest with
            | [] => some ()
            | c :: _ => if isWordC c then none else some ()
        match r with
        | ' ' :: r2 =>
          (match outB r2 with
           | some v => some v
           | none => outB r)
        | _ => outB r) none s.data).isSome

/-- Source `isLikelyTransferMessage`: the eleven checks, in source order. -/
def isLikelyTransferMessage (s : String) : Bool :=
  testWordCI ['t', 'r', 'a', 'n', 's', 'f', 'e', 'r'] s ||
  testSubCI ['ت', 'ح', 'و', 'ي', 'ل'] s ||
  testTahwilLahzi s ||
  testWordCI ['i', 'n', 's', 't', 'a', 'p', 'a', 'y'] s ||
  testSubCI ['i', 'p', 'n'] s ||
  testWordCI ['i', 'b', 'a', 'n'] s ||
  testWordCI ['s', 'w', 'i', 'f', 't'] s ||
  testWordCI ['s', 'e', 'n', 't', ' ', 't', 'o'] s ||
  testWordCI ['r', 'e', 'c', 'e', 'i', 'v', 'e', 'd', ' ', 'f', 'r', 'o', 'm'] s ||
  testWordCI ['w', 'a', 'l', 'l', 'e', 't'] s ||
  testCashOut s

/-! ### getToEgpRate (part_005 lines 287-320) -/

/-- One cached quote `{ rate, at }` of the module-level `fxCache`. -/
structure FxEntry where
  rate : ℚ
  obsAt : ℤ
deriving DecidableEq, Repr

/-- The module-level `fxCache`, one optional entry per currency. -/
def FxCache := SupportedCurrency → Option FxEntry

/-- The outcome of the single `fetch` to the rate endpoint: whether
`res.ok` held and the numeric value of `json?.rates?.EGP` (absent when the
field is missing or not a finite number). -/
structure FxFetch where
  httpOk : Bool
  rateField : Option ℚ
deriving DecidableEq, Repr

/-- The operator configuration: per foreign currency, the parsed numeric
value of `USD_TO_EGP_RATE` / `EUR_TO_EGP_RATE`.  Outer `none` means the
variable is unset or empty (falsy); inner `none` means `Number(...)` was not
finite. -/
structure FxConfig where
  envRate : SupportedCurrency → Option (Option ℚ)

/-- The cache TTL `6 * 60 * 60 * 1000`. -/
def sixHoursMs : ℤ := 6 * 60 * 60 * 1000

/-- The fetch-and-validate tail of `getToEgpRate` (source lines 306-319):
a thrown `fetch`, a non-OK response, and a missing or non-positive rate all
throw; a finite positive rate is cached under the currency key and
returned.  The `Bool` component records that a network call was made. -/
def fxFetchStep (cache : FxCache) (now : ℤ) (fetch : Option FxFetch)
    (currency : SupportedCurrency) : Except Unit ℚ × FxCache × Bool :=
  match fetch with
  | none => (.error (), cache, true)
  | some f =>
    if f.httpOk then
      match f.rateField with
      | some r =>
        if 0 < r then
          (.ok r, fun c => if c = currency then some ⟨r, now⟩ else cache c, true)
        else (.error (), cache, true)
      | none => (.error (), cache, true)
    else (.error (), cache, true)

/-- Source `getToEgpRate`: base currency short-circuit, env-var override,
6-hour cache window, then the network fetch.  Result, cache after the call,
and whether a network call was made. -/
def getToEgpRate (cfg : FxConfig) (cache : FxCache) (now : ℤ) (fetch : Option FxFetch)
    (currency : SupportedCurrency) : Except Unit ℚ × FxCache × Bool :=
  if currency = .EGP then (.ok 1, cache, false)
  else
    let cacheOrFetch : Except Unit ℚ × FxCache × Bool :=
      match cache currency with
      | some e =>
        if now - e.obsAt < sixHoursMs then (.ok e.rate, cache, false)
        else fxFetchStep cache now fetch currency
      | none => fxFetchStep cache now fetch currency
    match cfg.envRate currency with
    | some (some n) => if 0 < n then (.ok n, cache, false) else cacheOrFetch
    | some none => cacheOrFetch
    | none => cacheOrFetch

/-- The rate the env-var override yields, if any (derived view of the
override branch of `getToEgpRate`, for stating cache properties). -/
def overrideRate (cfg : FxConfig) (currency : SupportedCurrency) : Option ℚ :=
  match cfg.envRate currency with
  | some (some n) => if 0 < n then some n else none
  | _ => none

/-! ### The merchant history store and the AI oracle -/

/-- One row of the `transactions` table as seen by the history query. -/
structure HistRow where
  merchant : String
  category : Option String
  createdAt : ℤ
deriving DecidableEq, Repr

/-- The Supabase query
`.from('transactions').select('category').eq('merchant', m).limit(1)`:
the categories of the first at-most-one matching row, in the order the
store yields rows (the query applies no ordering). -/
def queryFirstCategory (table : List HistRow) (m : String) : List (Option String) :=
  ((table.filter (fun r => r.merchant = m)).map (fun r => r.category)).take 1

/-- Modelled from the spec (§4.5): the category of the most recently
categorized record sharing the same merchant string.  Used only to compare
the spec's contract with the query the code actually issues. -/
def specMostRecentCategory (table : List HistRow) (m : String) : Option String :=
  ((table.filter (fun r => r.merchant = m && r.category.isSome)).foldl
    (fun acc r =>
      match acc with
      | none => some r
      | some b => if b.createdAt < r.createdAt then some r else some b) none).bind
    (fun r => r.category)

/-- The normalized oracle response `AIExtraction` (every field nullable). -/
structure AIExtraction where
  merchant : Option String
  card_last4 : Option String
  currency : Option SupportedCurrency
  amount : Option ℚ
  category : Option String
  is_transfer : Option Bool
deriving DecidableEq, Repr

/-- All external inputs of one `handleMessage` run: what the oracle would
return if consulted, the FX configuration/cache/clock/fetch outcome, the
history table, and whether the query or the insert fails. -/
structure Env where
  aiResponse : Option AIExtraction
  fxConfig : FxConfig
  fxCache : FxCache
  now : ℤ
  fxFetch : Option FxFetch
  table : List HistRow
  queryFails : Bool
  insertFails : Bool

/-! ### handleMessage (part_005 lines 602-718) -/

/-- The `validCategories` list of the categorization branch. -/
def validCategories : List String :=
  ["Food", "Transport", "Bills", "Shopping", "Entertainment", "Healthcare",
   "Education", "Subscriptions", "Installments", "Transfers", "Other"]

/-- `Number((x).toFixed(2))` as exact rounding to 2 decimal places
(round half up, written with the computable `Rat.floor`). -/
def toFixed2 (q : ℚ) : ℚ := (((q * 100 + 1 / 2).floor : ℤ) : ℚ) / 100

/-- JS `toLowerCase()` over the ASCII range. -/
def toLowerStr (s : String) : String := String.mk (s.data.map asciiLower)

/-- JS `String.prototype.includes` (case-sensitive substring test). -/
def containsSub (s w : String) : Bool :=
  (findMap (fun l => (matchLit w.data l).map (fun _ => ())) s.data).isSome

/-- JS truthiness of a nullable string: `null`/`undefined` and `''` are
falsy. -/
def isTruthyOptStr : Option String → Bool
  | none => false
  | some s => s ≠ ""

/-- `const needAI = !transferDetectedByText && (!regexMerchant || !charged)`
(source lines 613-615; `!regexMerchant` is JS truthiness, so an empty-string
merchant also triggers the oracle). -/
def needAIOf (msg : String) : Bool :=
  !isLikelyTransferMessage msg &&
    (!isTruthyOptStr (parseMerchant msg) || (parseChargedAmount msg).isNone)

/-- `const ai = needAI ? await extractWithOpenRouter(message) : null`. -/
def aiOf (env : Env) (msg : String) : Option AIExtraction :=
  if needAIOf msg then env.aiResponse else none

/-- `charged?.currency ?? ai?.currency ?? 'EGP'`. -/
def originalCurrencyOf (env : Env) (msg : String) : SupportedCurrency :=
  (((parseChargedAmount msg).map Prod.fst).orElse
    (fun _ => (aiOf env msg).bind (fun a => a.currency))).getD .EGP

/-- `charged?.amount ?? ai?.amount ?? 0`. -/
def originalAmountOf (env : Env) (msg : String) : ℚ :=
  (((parseChargedAmount msg).map Prod.snd).orElse
    (fun _ => (aiOf env msg).bind (fun a => a.amount))).getD 0

/-- `regexMerchant ?? ai?.merchant ?? 'Unknown Merchant'` (nullish
coalescing keeps an empty-string regex merchant). -/
def merchantNameOf (env : Env) (msg : String) : String :=
  ((parseMerchant msg).orElse (fun _ => (aiOf env msg).bind (fun a => a.merchant))).getD
    "Unknown Merchant"

/-- `parsedCardLast4 ?? (ai?.card_last4 ?? null)`. -/
def cardNumberOf (env : Env) (msg : String) : Option String :=
  (parseCardLast4 msg).orElse (fun _ => (aiOf env msg).bind (fun a => a.card_last4))

/-- `transferDetectedByText || ai?.is_transfer === true`. -/
def transferDetectedOf (env : Env) (msg : String) : Bool :=
  isLikelyTransferMessage msg || ((aiOf env msg).bind (fun a => a.is_transfer) = some true)

/-- The `getToEgpRate` call of this run (result, cache after, fetched?). -/
def fxOf (env : Env) (msg : String) : Except Unit ℚ × FxCache × Bool :=
  getToEgpRate env.fxConfig env.fxCache env.now env.fxFetch (originalCurrencyOf env msg)

/-- Lines 626-633: `amountEgp = Number((originalAmount * rate).toFixed(2))`,
with the catch branch `amountEgp = Number(originalAmount) || 0`. -/
def amountEgpOf (env : Env) (msg : String) : ℚ :=
  match (fxOf env msg).1 with
  | .ok rate => toFixed2 (originalAmountOf env msg * rate)
  | .error _ => if originalAmountOf env msg = 0 then 0 else originalAmountOf env msg

/-- Lines 636-642: the history query, issued only for a non-sentinel
merchant; on a query error `data` is null. -/
def queryDataOf (env : Env) (msg : String) : Option (List (Option String)) :=
  if merchantNameOf env msg ≠ "Unknown Merchant" then
    (if env.queryFails then none
     else some (queryFirstCategory env.table (merchantNameOf env msg)))
  else none

/-- The truthy cached category
`existingTransactions && existingTransactions.length > 0 &&
existingTransactions[0].category`. -/
def fromHistoryOf (env : Env) (msg : String) : Option String :=
  match queryDataOf env msg with
  | some (c :: _) => if isTruthyOptStr c then c else none
  | _ => none

/-- Lines 650-651: the merchant override for transfers. -/
def merchantFinalOf (env : Env) (msg : String) : String :=
  if transferDetectedOf env msg then "Transfer" else merchantNameOf env msg

/-- Lines 644-674: transfer classification wins, then history, then a valid
oracle category, else `'Other'`. -/
def categoryOf (env : Env) (msg : String) : String :=
  if transferDetectedOf env msg then "Transfers"
  else
    match fromHistoryOf env msg with
    | some c => c
    | none =>
      match (aiOf env msg).bind (fun a => a.category) with
      | some c => if c ≠ "" && validCategories.contains c then c else "Other"
      | none => "Other"

/-- Lines 677-680: the insights auto-filter. -/
def includeInInsightsOf (env : Env) (msg : String) : Bool :=
  !containsSub (toLowerStr (merchantFinalOf env msg)) "transfer" &&
  !containsSub (toLowerStr (merchantFinalOf env msg)) "atm" &&
  categoryOf env msg ≠ "Transfers"

/-- The row inserted into `transactions` (lines 683-695); `created_at` is
present only when a message timestamp parsed, and `card_last4` is
`cardNumber || null` (an empty string becomes null). -/
structure TxRecord where
  createdAtOverride : Option String
  card_last4 : Option String
  amount : ℚ
  merchant : String
  category : String
  include_in_insights : Bool
  raw_text : String
deriving DecidableEq, Repr

/-- The success response body (lines 705-717). -/
structure TxBody where
  card_last4 : Option String
  amount : ℚ
  original_currency : SupportedCurrency
  original_amount : ℚ
  merchant : String
  category : String
  include_in_insights : Bool
deriving DecidableEq, Repr

/-- The route's response taxonomy: 400 client errors, the 500 insert
failure, and the 200 success body. -/
inductive ApiResponse
  | clientError (msg : String)
  | serverError
  | success (body : TxBody)
deriving DecidableEq, Repr

/-- `cardNumber || null`. -/
def orNullStr : Option String → Option String
  | some "" => none
  | x => x

/-- Everything one `handleMessage` run produces or observes: the inserted
row, the response, whether the oracle adapter was invoked, and the FX call's
result, fetch flag and cache after the call. -/
structure HandleResult where
  record : TxRecord
  response : ApiResponse
  aiConsulted : Bool
  originalCurrency : SupportedCurrency
  originalAmount : ℚ
  fxResult : Except Unit ℚ
  fxFetched : Bool
  fxCacheAfter : FxCache

/-- Source `handleMessage` (lines 602-718), assembled from the step
definitions above.  The function is total: the only failure surfaced is the
insert error (500); there is no client-error path inside `handleMessage`. -/
def handleMessage (env : Env) (msg : String) : HandleResult :=
  { record :=
      { createdAtOverride := parseMessageTimestamp msg
        card_last4 := orNullStr (cardNumberOf env msg)
        amount := amountEgpOf env msg
        merchant := merchantFinalOf env msg
        category := categoryOf env msg
        include_in_insights := includeInInsightsOf env msg
        raw_text := msg }
    response :=
      if env.insertFails then .serverError
      else
        .success
          { card_last4 := orNullStr (cardNumberOf env msg)
            amount := amountEgpOf env msg
            original_currency := originalCurrencyOf env msg
            original_amount := originalAmountOf env msg
            merchant := merchantFinalOf env msg
            category := categoryOf env msg
            include_in_insights := includeInInsightsOf env msg }
    aiConsulted := needAIOf msg
    originalCurrency := originalCurrencyOf env msg
    originalAmount := originalAmountOf env msg
    fxResult := (fxOf env msg).1
    fxFetched := (fxOf env msg).2.2
    fxCacheAfter := (fxOf env msg).2.1 }

/-- The GET route (lines 720-734): an absent or blank `message` query
parameter is rejected with a 400 before the pipeline runs. -/
def routeGet (env : Env) (messageParam : Option String) : ApiResponse :=
  match messageParam with
  | none => .clientError "message query param is required"
  | some m =>
    if trimChars m.data = [] then .clientError "message query param is required"
    else (handleMessage env m).response

/-! ### Concrete environments for witnesses and counterexamples -/

/-- A minimal environment: no oracle signal, no overrides, empty cache and
table, fetch fails, query and insert succeed. -/
def env0 : Env :=
  { aiResponse := none
    fxConfig := ⟨fun _ => none⟩
    fxCache := fun _ => none
    now := 0
    fxFetch := none
    table := []
    queryFails := false
    insertFails := false }

/-! ## Theorems

### FX resolver lemmas -/

theorem fxFetchStep_cases (cache : FxCache) (now : ℤ) (fetch : Option FxFetch)
    (cur : SupportedCurrency) :
    (fxFetchStep cache now fetch cur).2.1 = cache ∨
      ∃ q, 0 < q ∧ fetch = some ⟨true, some q⟩ ∧
        (fxFetchStep cache now fetch cur).1 = .ok q ∧
        (fxFetchStep cache now fetch cur).2.1 =
          fun c => if c = cur then some ⟨q, now⟩ else cache c := by
  rcases fetch with _ | f
  · exact Or.inl rfl
  · rcases f with ⟨ok, rate⟩
    rcases ok with _ | _
    · exact Or.inl rfl
    · rcases rate with _ | q
      · exact Or.inl rfl
      · by_cases hq : 0 < q
        · exact Or.inr ⟨q, hq, rfl, by simp [fxFetchStep, hq], by simp [fxFetchStep, hq]⟩
        · left
          simp [fxFetchStep, hq]

theorem getToEgpRate_cache_cases (cfg : FxConfig) (cache : FxCache) (now : ℤ)
    (fetch : Option FxFetch) (cur : SupportedCurrency) :
    (getToEgpRate cfg cache now fetch cur).2.1 = cache ∨
      ∃ q, 0 < q ∧ fetch = some ⟨true, some q⟩ ∧
        (getToEgpRate cfg cache now fetch cur).1 = .ok q ∧
        (getToEgpRate cfg cache now fetch cur).2.1 =
          fun c => if c = cur then some ⟨q, now⟩ else cache c := by
  unfold getToEgpRate
  by_cases hc : cur = .EGP
  · simp [hc]
  · simp only [hc, if_false]
    rcases hov : cfg.envRate cur with _ | ov
    · rcases hcache : cache cur with _ | e
      · simpa [hcache] using fxFetchStep_cases cache now fetch cur
      · by_cases hfresh : now - e.obsAt < sixHoursMs
        · simp [hcache, hfresh]
        · simpa [hcache, hfresh] using fxFetchStep_cases cache now fetch cur
    · rcases ov with _ | n
      · rcases hcache : cache cur with _ | e
        · simpa [hcache] using fxFetchStep_cases cache now fetch cur
        · by_cases hfresh : now - e.obsAt < sixHoursMs
          · simp [hcache, hfresh]
          · simpa [hcache, hfresh] using fxFetchStep_cases cache now fetch cur
      · by_cases hn : 0 < n
        · simp [hn]
        · simp only [hn, if_false]
          rcases hcache : cache cur with _ | e
          · simpa [hcache] using fxFetchStep_cases cache now fetch cur
          · by_cases hfresh : now - e.obsAt < sixHoursMs
            · simp [hcache, hfresh]
            · simpa [hcache, hfresh] using fxFetchStep_cases cache now fetch cur

/-- C10: the FX cache is mutated only by a successful network fetch that
yielded a (finite) strictly positive rate; every other path of
`getToEgpRate` — base-currency return, env override, non-OK response,
missing or non-positive rate field, thrown fetch — leaves the cache exactly
unchanged, and consequently every entry ever stored in the cache has a
strictly positive rate. -/
theorem claim_C10 (cfg : FxConfig) (cache : FxCache) (now : ℤ)
    (fetch : Option FxFetch) (cur : SupportedCurrency)
    (hWF : ∀ c e, cache c = some e → 0 < e.rate) :
    ((getToEgpRate cfg cache now fetch cur).2.1 = cache ∨
      ∃ q, 0 < q ∧ fetch = some ⟨true, some q⟩ ∧
        (getToEgpRate cfg cache now fetch cur).1 = .ok q ∧
        (getToEgpRate cfg cache now fetch cur).2.1 =
          fun c => if c = cur then some ⟨q, now⟩ else cache c) ∧
    (∀ c e, (getToEgpRate cfg cache now fetch cur).2.1 c = some e → 0 < e.rate) := by
  refine ⟨getToEgpRate_cache_cases cfg cache now fetch cur, ?_⟩
  rcases getToEgpRate_cache_cases cfg cache now fetch cur with heq | ⟨q, hq, _, _, heq⟩
  · rw [heq]; exact hWF
  · rw [heq]
    intro c e hce
    by_cases hc : c = cur
    · simp only [hc, if_pos rfl] at hce
      cases hce
      exact hq
    · simp only [hc, if_false] at hce
      exact hWF c e hce

theorem claim_C10_witness :
    ((∀ c e, (fun _ : SupportedCurrency => (none : Option FxEntry)) c = some e → 0 < e.rate) ∧
      (((getToEgpRate ⟨fun _ => none⟩ (fun _ => none) 0 none .USD).2.1 =
          (fun _ => none) ∨
        ∃ q, 0 < q ∧ (none : Option FxFetch) = some ⟨true, some q⟩ ∧
          (getToEgpRate ⟨fun _ => none⟩ (fun _ => none) 0 none .USD).1 = .ok q ∧
          (getToEgpRate ⟨fun _ => none⟩ (fun _ => none) 0 none .USD).2.1 =
            fun c => if c = .USD then some ⟨q, 0⟩ else none) ∧
       ∀ c e, (getToEgpRate ⟨fun _ => none⟩ (fun _ => none) 0 none .USD).2.1 c = some e →
          0 < e.rate)) := by
  have hWF : ∀ c e, (fun _ : SupportedCurrency => (none : Option FxEntry)) c = some e →
      0 < e.rate := fun c e h => by cases h
  exact ⟨hWF, claim_C10 ⟨fun _ => none⟩ (fun _ => none) 0 none .USD hWF⟩

theorem getToEgpRate_override_none (cfg : FxConfig) (cache : FxCache) (now : ℤ)
    (fetch : Option FxFetch) (cur : SupportedCurrency) (hcur : cur ≠ .EGP)
    (hov : overrideRate cfg cur = none) :
    getToEgpRate cfg cache now fetch cur =
      match cache cur with
      | some e =>
        if now - e.obsAt < sixHoursMs then (.ok e.rate, cache, false)
        else fxFetchStep cache now fetch cur
      | none => fxFetchStep cache now fetch cur := by
  unfold getToEgpRate
  rw [if_neg hcur]
  unfold overrideRate at hov
  rcases h : cfg.envRate cur with _ | ov
  · simp [h]
  · rcases ov with _ | n
    · simp [h]
    · rw [h] at hov
      have hov' : (if 0 < n then some n else none : Option ℚ) = none := hov
      by_cases hn : 0 < n
      · simp [hn] at hov'
      · simp [h, hn]

theorem fxFetchStep_fetched (cache : FxCache) (now : ℤ) (fetch : Option FxFetch)
    (cur : SupportedCurrency) : (fxFetchStep cache now fetch cur).2.2 = true := by
  rcases fetch with _ | ⟨ok, rate⟩
  · rfl
  · rcases ok with _ | _
    · rfl
    · rcases rate with _ | q
      · rfl
      · by_cases hq : 0 < q
        · simp [fxFetchStep, hq]
        · simp [fxFetchStep, hq]

theorem fxFetchStep_ok_inv (cache : FxCache) (now : ℤ) (fetch : Option FxFetch)
    (cur : SupportedCurrency) (r : ℚ) (c1 : FxCache)
    (h : fxFetchStep cache now fetch cur = (.ok r, c1, true)) :
    fetch = some ⟨true, some r⟩ ∧ 0 < r ∧
      c1 = fun c => if c = cur then some ⟨r, now⟩ else cache c := by
  rcases fetch with _ | ⟨ok, rate⟩
  · simp [fxFetchStep] at h
  · rcases ok with _ | _
    · simp [fxFetchStep] at h
    · rcases rate with _ | q
      · simp [fxFetchStep] at h
      · by_cases hq : 0 < q
        · have h1 : (Except.ok q : Except Unit ℚ) = Except.ok r := by
            have hp := congrArg (fun p => p.1) h
            simpa [fxFetchStep, hq] using hp
          have h2 : (fun c => if c = cur then some (⟨q, now⟩ : FxEntry) else cache c) = c1 := by
            have hp := congrArg (fun p => p.2.1) h
            simpa [fxFetchStep, hq] using hp
          cases h1
          exact ⟨rfl, hq, h2.symm⟩
        · simp [fxFetchStep, hq] at h

/-- C5 counterexample.  The claim quantifies over every pair of successful
calls whose times differ by less than 6 hours; but the 6-hour window runs
from the cached quote's observation time, not from the previous call.  With
a quote for USD observed at time 0, a first call at 21596400 ms is a cache
hit returning 48 with no fetch, and a second call 3.6 seconds later — well
within 6 hours of the first call — finds the entry expired, performs a
network fetch, and returns the fresh rate 50 ≠ 48. -/
theorem claim_C5_cex :
    (getToEgpRate ⟨fun _ => none⟩ (fun c => if c = .USD then some ⟨48, 0⟩ else none)
        21596400 none .USD).1 = .ok 48 ∧
    (getToEgpRate ⟨fun _ => none⟩ (fun c => if c = .USD then some ⟨48, 0⟩ else none)
        21596400 none .USD).2.2 = false ∧
    (getToEgpRate ⟨fun _ => none⟩ (fun c => if c = .USD then some ⟨48, 0⟩ else none)
        21596400 none .USD).2.1 =
      (fun c => if c = .USD then some ⟨48, 0⟩ else none) ∧
    ((21600000 : ℤ) - 21596400 < sixHoursMs) ∧
    (getToEgpRate ⟨fun _ => none⟩ (fun c => if c = .USD then some ⟨48, 0⟩ else none)
        21600000 (some ⟨true, some 50⟩) .USD).1 = .ok 50 ∧
    (getToEgpRate ⟨fun _ => none⟩ (fun c => if c = .USD then some ⟨48, 0⟩ else none)
        21600000 (some ⟨true, some 50⟩) .USD).2.2 = true ∧
    (48 : ℚ) ≠ 50 := by
  exact ⟨rfl, rfl, rfl, by decide, rfl, rfl, by norm_num⟩

/-- C5 (amended): the idempotence window of the FX cache runs from the
cached quote's observation time, not from the previous call.  Precisely:
(1) the base currency EGP always returns exactly 1 with no network call and
an unchanged cache; (2) if a call (with no effective env override) performed
a successful network fetch at time `t1`, then any later call within
`t2 - t1 < 6` hours returns the identical rate, performs no network fetch,
and leaves the cache unchanged; (3) a cache entry of age at least 6 hours is
not reused: the call performs a network fetch, and on a successful fetch of
a positive rate the entry is replaced by the fresh quote. -/
theorem claim_C5 :
    (∀ cfg cache now fetch, getToEgpRate cfg cache now fetch .EGP = (.ok 1, cache, false)) ∧
    (∀ cfg cache t1 t2 fetch1 fetch2 cur r c1,
      overrideRate cfg cur = none →
      getToEgpRate cfg cache t1 fetch1 cur = (.ok r, c1, true) →
      t2 - t1 < sixHoursMs →
      getToEgpRate cfg c1 t2 fetch2 cur = (.ok r, c1, false)) ∧
    (∀ cfg cache now fetch cur e,
      cur ≠ .EGP → overrideRate cfg cur = none →
      cache cur = some e → sixHoursMs ≤ now - e.obsAt →
      (getToEgpRate cfg cache now fetch cur).2.2 = true ∧
      ∀ q, fetch = some ⟨true, some q⟩ → 0 < q →
        getToEgpRate cfg cache now fetch cur =
          (.ok q, fun c => if c = cur then some ⟨q, now⟩ else cache c, true)) := by
  refine ⟨fun cfg cache now fetch => rfl, ?_, ?_⟩
  · intro cfg cache t1 t2 fetch1 fetch2 cur r c1 hov h1 hwin
    have hcur : cur ≠ .EGP := by
      intro hc
      rw [hc] at h1
      have hb := congrArg (fun p => p.2.2) h1
      simp [getToEgpRate] at hb
    rw [getToEgpRate_override_none cfg cache t1 fetch1 cur hcur hov] at h1
    have hstep : fxFetchStep cache t1 fetch1 cur = (.ok r, c1, true) := by
      rcases he : cache cur with _ | e
      · rw [he] at h1
        exact h1
      · rw [he] at h1
        have h1' : (if t1 - e.obsAt < sixHoursMs
            then ((Except.ok e.rate : Except Unit ℚ), cache, false)
            else fxFetchStep cache t1 fetch1 cur) = (.ok r, c1, true) := h1
        by_cases hlt : t1 - e.obsAt < sixHoursMs
        · rw [if_pos hlt] at h1'
          have hb := congrArg (fun p => p.2.2) h1'
          simp at hb
        · rw [if_neg hlt] at h1'
          exact h1'
    obtain ⟨_, _, hc1⟩ := fxFetchStep_ok_inv cache t1 fetch1 cur r c1 hstep
    rw [getToEgpRate_override_none cfg c1 t2 fetch2 cur hcur hov]
    have hentry : c1 cur = some ⟨r, t1⟩ := by
      rw [hc1]
      simp
    rw [hentry]
    simp [hwin]
  · intro cfg cache now fetch cur e hcur hov he hstale
    have hred : getToEgpRate cfg cache now fetch cur = fxFetchStep cache now fetch cur := by
      rw [getToEgpRate_override_none cfg cache now fetch cur hcur hov, he]
      exact if_neg (not_lt.mpr hstale)
    rw [hred]
    refine ⟨fxFetchStep_fetched cache now fetch cur, ?_⟩
    intro q hfetch hq
    rw [hfetch]
    simp [fxFetchStep, hq]

theorem claim_C5_witness :
    (getToEgpRate ⟨fun _ => none⟩ (fun _ => none) 0 none .EGP =
      (.ok 1, fun _ => none, false)) ∧
    (getToEgpRate ⟨fun _ => none⟩
        (fun c => if c = .USD then some ⟨48, 0⟩ else (fun _ => none) c) 3600 none .USD =
      (.ok 48, fun c => if c = .USD then some ⟨48, 0⟩ else (fun _ => none) c, false)) ∧
    ((getToEgpRate ⟨fun _ => none⟩ (fun c => if c = .USD then some ⟨48, 0⟩ else none)
        21600000 (some ⟨true, some 50⟩) .USD).2.2 = true ∧
      getToEgpRate ⟨fun _ => none⟩ (fun c => if c = .USD then some ⟨48, 0⟩ else none)
          21600000 (some ⟨true, some 50⟩) .USD =
        (.ok 50, fun c => if c = .USD then some ⟨50, 21600000⟩
            else (fun c' => if c' = .USD then some ⟨48, 0⟩ else none) c, true)) := by
  refine ⟨claim_C5.1 ⟨fun _ => none⟩ (fun _ => none) 0 none, ?_, ?_⟩
  · exact claim_C5.2.1 ⟨fun _ => none⟩ (fun _ => none) 0 3600
      (some ⟨true, some 48⟩) none .USD 48
      (fun c => if c = .USD then some ⟨48, 0⟩ else (fun _ => none) c)
      rfl rfl (by decide)
  · have h := claim_C5.2.2 ⟨fun _ => none⟩
      (fun c => if c = .USD then some ⟨48, 0⟩ else none) 21600000
      (some ⟨true, some 50⟩) .USD ⟨48, 0⟩ (by decide) rfl rfl (by decide)
    exact ⟨h.1, h.2 50 rfl (by norm_num)⟩

/-! ### C4: rate failure degrades to the unconverted amount -/

/-- C4: for a message whose original currency is foreign, when
`getToEgpRate` fails (override and network both unavailable) `handleMessage`
does not fail: `amountBase` is set to the unconverted original amount, no
client error is surfaced for the rate error, and (provided the insert
itself succeeds) the transaction is still persisted and returned with that
amount. -/
theorem claim_C4 (env : Env) (msg : String)
    (hcur : originalCurrencyOf env msg ≠ .EGP)
    (hfx : (handleMessage env msg).fxResult = .error ()) :
    (handleMessage env msg).record.amount = originalAmountOf env msg ∧
    (∀ s, (handleMessage env msg).response ≠ .clientError s) ∧
    (env.insertFails = false →
      ∃ b, (handleMessage env msg).response = .success b ∧
        b.amount = originalAmountOf env msg ∧
        b.original_amount = originalAmountOf env msg) := by
  have hfx' : (fxOf env msg).1 = .error () := hfx
  have hamt : amountEgpOf env msg = originalAmountOf env msg := by
    unfold amountEgpOf
    rw [hfx']
    by_cases h0 : originalAmountOf env msg = 0
    · rw [if_pos h0, h0]
    · rw [if_neg h0]
  refine ⟨hamt, ?_, ?_⟩
  · intro s
    show (if env.insertFails then ApiResponse.serverError else _) ≠ _
    by_cases hins : env.insertFails
    · simp [hins]
    · simp [hins]
  · intro hins
    have hresp : (handleMessage env msg).response = .success
        { card_last4 := orNullStr (cardNumberOf env msg)
          amount := amountEgpOf env msg
          original_currency := originalCurrencyOf env msg
          original_amount := originalAmountOf env msg
          merchant := merchantFinalOf env msg
          category := categoryOf env msg
          include_in_insights := includeInInsightsOf env msg } := by
      show (if env.insertFails then ApiResponse.serverError else _) = _
      rw [hins]
      simp
    exact ⟨_, hresp, hamt, rfl⟩

theorem claim_C4_witness :
    originalCurrencyOf env0 "credit card #1234 charged USD 20.00 at Amazon" ≠ .EGP ∧
    (handleMessage env0 "credit card #1234 charged USD 20.00 at Amazon").fxResult =
      .error () ∧
    ((handleMessage env0 "credit card #1234 charged USD 20.00 at Amazon").record.amount =
        originalAmountOf env0 "credit card #1234 charged USD 20.00 at Amazon" ∧
      (∀ s, (handleMessage env0 "credit card #1234 charged USD 20.00 at Amazon").response ≠
        .clientError s) ∧
      (env0.insertFails = false →
        ∃ b, (handleMessage env0
            "credit card #1234 charged USD 20.00 at Amazon").response = .success b ∧
          b.amount = originalAmountOf env0 "credit card #1234 charged USD 20.00 at Amazon" ∧
          b.original_amount =
            originalAmountOf env0 "credit card #1234 charged USD 20.00 at Amazon")) := by
  refine ⟨by decide, rfl, claim_C4 env0 _ (by decide) rfl⟩

/-! ### C2: transfer keywords force the transfer classification -/

/-- C2: any message containing a transfer-vocabulary keyword (as tested by
`isLikelyTransferMessage`) yields merchant `"Transfer"`, category
`"Transfers"`, and `includeInInsights = false`, regardless of the oracle's
would-be answer — and the oracle adapter is not even consulted. -/
theorem claim_C2 (env : Env) (msg : String) (h : isLikelyTransferMessage msg = true) :
    (handleMessage env msg).record.merchant = "Transfer" ∧
    (handleMessage env msg).record.category = "Transfers" ∧
    (handleMessage env msg).record.include_in_insights = false ∧
    (handleMessage env msg).aiConsulted = false := by
  have hneed : needAIOf msg = false := by simp [needAIOf, h]
  have htr : transferDetectedOf env msg = true := by simp [transferDetectedOf, h]
  have hmf : merchantFinalOf env msg = "Transfer" := by simp [merchantFinalOf, htr]
  have hcat : categoryOf env msg = "Transfers" := by simp [categoryOf, htr]
  have hc : containsSub (toLowerStr "Transfer") "transfer" = true := by decide
  have hins : includeInInsightsOf env msg = false := by
    unfold includeInInsightsOf
    rw [hmf, hc]
    simp
  exact ⟨hmf, hcat, hins, hneed⟩

/-- An environment whose oracle would answer with a full contradicting
extraction (merchant, category, `is_transfer = false`): used to show the
transfer classification ignores it. -/
def env2 : Env :=
  { env0 with
    aiResponse := some
      { merchant := some "Shop"
        card_last4 := some "9999"
        currency := some .USD
        amount := some 7
        category := some "Food"
        is_transfer := some false } }

theorem claim_C2_witness :
    isLikelyTransferMessage "Transfer reference 123 of EGP 5000.00 has been debited" = true ∧
    ((handleMessage env2
        "Transfer reference 123 of EGP 5000.00 has been debited").record.merchant =
        "Transfer" ∧
      (handleMessage env2
        "Transfer reference 123 of EGP 5000.00 has been debited").record.category =
        "Transfers" ∧
      (handleMessage env2
        "Transfer reference 123 of EGP 5000.00 has been debited").record.include_in_insights =
        false ∧
      (handleMessage env2
        "Transfer reference 123 of EGP 5000.00 has been debited").aiConsulted = false) := by
  refine ⟨by decide, claim_C2 env2 _ (by decide)⟩

/-! ### C8: timestamp parsing policy -/

/-- C8: `parseMessageTimestamp` factors into the regex match and the
validation step; any out-of-range component (month outside 1-12, day
outside 1-31, hour above 23, minute above 59) makes the function return
`none` (and, being total, it never throws), in which case the record's
`created_at` override is absent so ingestion time applies; an in-range
2-digit year `YY` is interpreted as `2000 + YY`; concretely,
`"on 21/12/25 14:03"` parses to the year 2025. -/
theorem claim_C8 :
    (∀ msg, parseMessageTimestamp msg = (matchTS msg).bind buildTimestamp) ∧
    (∀ c : TSCaps,
      (c.month < 1 ∨ 12 < c.month ∨ c.day < 1 ∨ 31 < c.day ∨ 23 < c.hour ∨
        59 < c.minute) →
      buildTimestamp c = none) ∧
    (∀ env msg, parseMessageTimestamp msg = none →
      (handleMessage env msg).record.createdAtOverride = none) ∧
    (∀ c : TSCaps, c.rawYear < 100 →
      1 ≤ c.month → c.month ≤ 12 → 1 ≤ c.day → c.day ≤ 31 → c.hour ≤ 23 →
      c.minute ≤ 59 → c.day ≤ daysInMonth (2000 + c.rawYear) c.month →
      buildTimestamp c = some (isoString (2000 + c.rawYear) c.month c.day
        (if c.pm = some false ∧ c.hour = 12 then 0
         else if c.pm = some true ∧ c.hour < 12 then c.hour + 12 else c.hour)
        c.minute)) ∧
    parseMessageTimestamp "Purchase at CAFE on 21/12/25 14:03" =
      some "2025-12-21T14:03:00+02:00" := by
  refine ⟨fun msg => rfl, ?_, fun env msg h => h, ?_, by decide⟩
  · intro c hbad
    unfold buildTimestamp
    rw [if_pos hbad]
  · intro c hy h1 h2 h3 h4 h5 h6 hcal
    unfold buildTimestamp
    rw [if_neg (by omega)]
    rw [if_pos hy]
    rw [if_pos ⟨by omega, hcal⟩]

theorem claim_C8_witness :
    ((⟨21, 13, 25, 14, 3, none⟩ : TSCaps).month < 1 ∨
      12 < (⟨21, 13, 25, 14, 3, none⟩ : TSCaps).month ∨
      (⟨21, 13, 25, 14, 3, none⟩ : TSCaps).day < 1 ∨
      31 < (⟨21, 13, 25, 14, 3, none⟩ : TSCaps).day ∨
      23 < (⟨21, 13, 25, 14, 3, none⟩ : TSCaps).hour ∨
      59 < (⟨21, 13, 25, 14, 3, none⟩ : TSCaps).minute) ∧
    buildTimestamp ⟨21, 13, 25, 14, 3, none⟩ = none ∧
    parseMessageTimestamp "on 21/13/25 14:03" = none ∧
    (handleMessage env0 "on 21/13/25 14:03").record.createdAtOverride = none ∧
    buildTimestamp ⟨21, 12, 25, 14, 3, none⟩ =
      some (isoString (2000 + 25) 12 21
        (if (⟨21, 12, 25, 14, 3, none⟩ : TSCaps).pm = some false ∧
            (⟨21, 12, 25, 14, 3, none⟩ : TSCaps).hour = 12 then 0
         else if (⟨21, 12, 25, 14, 3, none⟩ : TSCaps).pm = some true ∧
            (⟨21, 12, 25, 14, 3, none⟩ : TSCaps).hour < 12 then 14 + 12 else 14) 3) := by
  have hbad : (13 : Nat) < 1 ∨ 12 < 13 ∨ (21 : Nat) < 1 ∨ 31 < 21 ∨ 23 < 14 ∨
      59 < (3 : Nat) := by omega
  refine ⟨by decide, claim_C8.2.1 ⟨21, 13, 25, 14, 3, none⟩ hbad, by decide,
    claim_C8.2.2.1 env0 "on 21/13/25 14:03" (by decide),
    claim_C8.2.2.2.1 ⟨21, 12, 25, 14, 3, none⟩ (by decide) (by decide) (by decide)
      (by decide) (by decide) (by decide) (by decide) (by decide)⟩

/-! ### C3: handleMessage never rejects -/

theorem ratFloor_eq_intFloor (q : ℚ) : q.floor = ⌊q⌋ := by
  rw [Rat.floor_def', Rat.floor_def]

theorem toFixed2_eq_round (q : ℚ) : toFixed2 q = ((round (q * 100) : ℤ) : ℚ) / 100 := by
  rw [toFixed2, ratFloor_eq_intFloor, round_eq]

theorem toFixed2_zero : toFixed2 0 = 0 := by
  rw [toFixed2_eq_round]
  simp

theorem merchantName_unresolved (env : Env) (msg : String)
    (hmer : parseMerchant msg = none)
    (hai : (aiOf env msg).bind (fun a => a.merchant) = none) :
    merchantNameOf env msg = "Unknown Merchant" := by
  unfold merchantNameOf
  rw [hmer]
  show ((aiOf env msg).bind (fun a => a.merchant)).getD "Unknown Merchant" = _
  rw [hai]
  rfl

theorem originalAmount_unresolved (env : Env) (msg : String)
    (hch : parseChargedAmount msg = none)
    (hai : (aiOf env msg).bind (fun a => a.amount) = none) :
    originalAmountOf env msg = 0 := by
  unfold originalAmountOf
  rw [hch]
  show ((aiOf env msg).bind (fun a => a.amount)).getD 0 = _
  rw [hai]
  rfl

theorem amountEgp_zero (env : Env) (msg : String)
    (h : originalAmountOf env msg = 0) : amountEgpOf env msg = 0 := by
  unfold amountEgpOf
  rcases hfx : (fxOf env msg).1 with e | r
  · simp only [hfx]
    rw [h]
    simp
  · simp only [hfx]
    rw [h, zero_mul, toFixed2_zero]

theorem handleMessage_success_body (env : Env) (msg : String)
    (hins : env.insertFails = false) :
    (handleMessage env msg).response = .success
      { card_last4 := orNullStr (cardNumberOf env msg)
        amount := amountEgpOf env msg
        original_currency := originalCurrencyOf env msg
        original_amount := originalAmountOf env msg
        merchant := merchantFinalOf env msg
        category := categoryOf env msg
        include_in_insights := includeInInsightsOf env msg } := by
  show (if env.insertFails then ApiResponse.serverError else _) = _
  rw [hins]
  simp

/-- C3 counterexample: for the message `"hello"` — no card, no amount, no
merchant, and an oracle that yields nothing — `handleMessage` does not fail
fast with a client error and does not skip persistence: it assembles a
record with merchant `"Unknown Merchant"` and amount 0, inserts it, and
returns success. -/
theorem claim_C3_cex :
    parseChargedAmount "hello" = none ∧
    parseMerchant "hello" = none ∧
    (∃ b, (handleMessage env0 "hello").response = .success b ∧
      b.merchant = "Unknown Merchant" ∧ b.amount = 0) ∧
    (handleMessage env0 "hello").record.merchant = "Unknown Merchant" ∧
    (handleMessage env0 "hello").record.amount = 0 := by
  have hch : parseChargedAmount "hello" = none := by decide
  have hmer : parseMerchant "hello" = none := by decide
  have haim : (aiOf env0 "hello").bind (fun a => a.merchant) = none := by decide
  have haia : (aiOf env0 "hello").bind (fun a => a.amount) = none := by decide
  have hname : merchantNameOf env0 "hello" = "Unknown Merchant" :=
    merchantName_unresolved env0 "hello" hmer haim
  have hmf : merchantFinalOf env0 "hello" = "Unknown Merchant" := by
    unfold merchantFinalOf
    rw [hname]
    simp [show transferDetectedOf env0 "hello" = false from by decide]
  have hamt : amountEgpOf env0 "hello" = 0 :=
    amountEgp_zero env0 "hello" (originalAmount_unresolved env0 "hello" hch haia)
  exact ⟨hch, hmer, ⟨_, handleMessage_success_body env0 "hello" rfl, hmf, hamt⟩, hmf, hamt⟩

/-- C3 (amended): `handleMessage` never rejects a message: it has no
client-error path, assembly is total (never raises), and whenever the
insert succeeds it returns a success body — even when both amount and
merchant are unresolved after the full pipeline, in which case the record
is persisted with the fallback merchant `"Unknown Merchant"` and amount 0.
The only client-error rejection is the route-level guard for an absent or
blank message, before the pipeline runs. -/
theorem claim_C3 :
    (∀ env msg s, (handleMessage env msg).response ≠ .clientError s) ∧
    (∀ env msg, env.insertFails = false →
      ∃ b, (handleMessage env msg).response = .success b) ∧
    (∀ env msg, parseChargedAmount msg = none → parseMerchant msg = none →
      (aiOf env msg).bind (fun a => a.merchant) = none →
      (aiOf env msg).bind (fun a => a.amount) = none →
      transferDetectedOf env msg = false →
      (handleMessage env msg).record.merchant = "Unknown Merchant" ∧
      (handleMessage env msg).record.amount = 0) ∧
    (∀ env, routeGet env none = .clientError "message query param is required") ∧
    (∀ env s, trimChars s.data = [] →
      routeGet env (some s) = .clientError "message query param is required") := by
  refine ⟨?_, ?_, ?_, fun env => rfl, ?_⟩
  · intro env msg s
    show (if env.insertFails then ApiResponse.serverError else _) ≠ _
    by_cases hins : env.insertFails
    · simp [hins]
    · simp [hins]
  · intro env msg hins
    exact ⟨_, handleMessage_success_body env msg hins⟩
  · intro env msg hch hmer hai hamt htr
    have hname := merchantName_unresolved env msg hmer hai
    have hmf : (handleMessage env msg).record.merchant = "Unknown Merchant" := by
      show merchantFinalOf env msg = _
      unfold merchantFinalOf
      rw [htr]
      simpa using hname
    exact ⟨hmf, amountEgp_zero env msg (originalAmount_unresolved env msg hch hamt)⟩
  · intro env s hs
    show (if trimChars s.data = [] then
        ApiResponse.clientError "message query param is required"
      else (handleMessage env s).response) = _
    rw [if_pos hs]

theorem claim_C3_witness :
    (handleMessage env0 "zzz").response ≠ .clientError "x" ∧
    (∃ b, (handleMessage env0 "zzz").response = .success b) ∧
    ((handleMessage env0 "zzz").record.merchant = "Unknown Merchant" ∧
      (handleMessage env0 "zzz").record.amount = 0) ∧
    routeGet env0 none = .clientError "message query param is required" ∧
    routeGet env0 (some "  ") = .clientError "message query param is required" := by
  exact ⟨claim_C3.1 env0 "zzz" "x", claim_C3.2.1 env0 "zzz" rfl,
    claim_C3.2.2.1 env0 "zzz" (by decide) (by decide) (by decide) (by decide) (by decide),
    claim_C3.2.2.2.1 env0, claim_C3.2.2.2.2 env0 "  " (by decide)⟩

/-! ### C6: merchant category memory wins over the oracle -/

/-- An environment whose oracle answers with the valid category
`"Shopping"` while the history store has a prior category `"Food"` for the
sentinel merchant: the pipeline skips the history query for the sentinel
and uses the oracle. -/
def env6 : Env :=
  { env0 with
    aiResponse := some
      { merchant := none
        card_last4 := none
        currency := none
        amount := none
        category := some "Shopping"
        is_transfer := none }
    table := [⟨"Unknown Merchant", some "Food", 0⟩] }

/-- C6 counterexample: the claim quantifies over every message whose
resolved merchant has a prior category in the history store.  The store can
contain rows for the fallback merchant `"Unknown Merchant"` (the pipeline
itself inserts them), and for a message resolving to that sentinel the code
skips the history query entirely: with prior category `"Food"` on record
and the oracle suggesting the valid category `"Shopping"`, the assembled
transaction uses the oracle's `"Shopping"`, not the stored `"Food"`. -/
theorem claim_C6_cex :
    merchantNameOf env6 "good morning" = "Unknown Merchant" ∧
    transferDetectedOf env6 "good morning" = false ∧
    (env6.table.filter
      (fun r => r.merchant = merchantNameOf env6 "good morning")).head? =
      some ⟨"Unknown Merchant", some "Food", 0⟩ ∧
    (handleMessage env6 "good morning").record.category = "Shopping" ∧
    ("Shopping" : String) ≠ "Food" := by
  decide

/-- C6 (amended): for every message that is not transfer-classified and
whose resolved merchant is not the sentinel `"Unknown Merchant"`, if the
history query succeeds and the store's first row for that merchant carries
a nonempty category, the assembled transaction uses that stored category —
for every environment, hence whatever (valid or not) category the oracle
would return; the oracle's category is consulted only when no such prior
category exists. -/
theorem claim_C6 (env : Env) (msg : String) (row : HistRow) (c : String)
    (htr : transferDetectedOf env msg = false)
    (hm : merchantNameOf env msg ≠ "Unknown Merchant")
    (hq : env.queryFails = false)
    (hrow : (env.table.filter
      (fun r => r.merchant = merchantNameOf env msg)).head? = some row)
    (hcat : row.category = some c) (hc : c ≠ "") :
    (handleMessage env msg).record.category = c := by
  have hqd : queryDataOf env msg =
      some (queryFirstCategory env.table (merchantNameOf env msg)) := by
    unfold queryDataOf
    rw [if_pos hm]
    simp [hq]
  rcases hfil : env.table.filter (fun r => r.merchant = merchantNameOf env msg) with
    _ | ⟨r0, tl⟩
  · rw [hfil] at hrow
    cases hrow
  · rw [hfil] at hrow
    have hr0 : r0 = row := by
      have : (r0 :: tl).head? = some r0 := rfl
      rw [this] at hrow
      cases hrow
      rfl
    have hqf : queryFirstCategory env.table (merchantNameOf env msg) = [some c] := by
      unfold queryFirstCategory
      rw [hfil, hr0]
      simp [hcat]
    have hfh : fromHistoryOf env msg = some c := by
      unfold fromHistoryOf
      rw [hqd, hqf]
      simp [isTruthyOptStr, hc]
    show categoryOf env msg = c
    unfold categoryOf
    rw [hfh]
    simp [htr]

/-- An environment for the C6 witness: the oracle would answer `"Food"`
(valid), but merchant "Starbucks" has the prior category `"Bills"`. -/
def env6w : Env :=
  { env0 with
    aiResponse := some
      { merchant := none
        card_last4 := none
        currency := none
        amount := some 12
        category := some "Food"
        is_transfer := none }
    table := [⟨"Starbucks", some "Bills", 5⟩] }

theorem claim_C6_witness :
    (handleMessage env6w "paid at Starbucks").record.category = "Bills" :=
  claim_C6 env6w "paid at Starbucks" ⟨"Starbucks", some "Bills", 5⟩ "Bills"
    (by decide) (by decide) rfl (by decide) rfl (by decide)

/-! ### C7: the history lookup is not most-recent -/

/-- C7 (amended): the merchant-history lookup issued by the pipeline
(`select('category').eq('merchant', m).limit(1)` with no ordering) returns
the category of the first matching row in the order the store yields rows:
it is entirely independent of the rows' timestamps, and when the store
yields a first matching row `r` the result is exactly `[r.category]` —
whatever more recently categorized rows exist. -/
theorem claim_C7 :
    (∀ (table : List HistRow) (m : String) (f : ℤ → ℤ),
      queryFirstCategory
        (table.map (fun r => ⟨r.merchant, r.category, f r.createdAt⟩)) m =
        queryFirstCategory table m) ∧
    (∀ (pre : List HistRow) (r : HistRow) (post : List HistRow) (m : String),
      (∀ p ∈ pre, p.merchant ≠ m) → r.merchant = m →
      queryFirstCategory (pre ++ r :: post) m = [r.category]) := by
  constructor
  · intro table m f
    induction table with
    | nil => rfl
    | cons r rest ih =>
      unfold queryFirstCategory at ih ⊢
      by_cases hm : r.merchant = m
      · simp [List.filter_cons, hm]
      · simp only [List.map_cons, List.filter_cons]
        simp only [hm]
        simpa using ih
  · intro pre r post m hpre hr
    induction pre with
    | nil =>
      unfold queryFirstCategory
      simp [List.filter_cons, hr]
    | cons p ps ih =>
      unfold queryFirstCategory at ih ⊢
      have hp : p.merchant ≠ m := hpre p (List.mem_cons_self p ps)
      simp only [List.cons_append, List.filter_cons]
      simp only [hp]
      simpa using ih (fun q hq => hpre q (List.mem_cons_of_mem p hq))

theorem claim_C7_witness :
    queryFirstCategory
        (([⟨"X", some "Food", 0⟩, ⟨"X", some "Shopping", 5⟩] : List HistRow).map
          (fun r => ⟨r.merchant, r.category, r.createdAt + 100⟩)) "X" =
      queryFirstCategory [⟨"X", some "Food", 0⟩, ⟨"X", some "Shopping", 5⟩] "X" ∧
    queryFirstCategory
        (([⟨"Y", some "Bills", 9⟩] : List HistRow) ++
          (⟨"X", some "Food", 0⟩ : HistRow) :: [⟨"X", some "Shopping", 5⟩]) "X" =
      [some "Food"] :=
  ⟨claim_C7.1 [⟨"X", some "Food", 0⟩, ⟨"X", some "Shopping", 5⟩] "X"
      (fun t => t + 100),
   claim_C7.2 [⟨"Y", some "Bills", 9⟩] ⟨"X", some "Food", 0⟩
      [⟨"X", some "Shopping", 5⟩] "X" (by decide) rfl⟩

/-- The store for the C7 counterexample: two rows for merchant "X"; the
store yields the older categorization first. -/
def env7 : Env :=
  { env0 with table := [⟨"X", some "Food", 0⟩, ⟨"X", some "Shopping", 5⟩] }

/-- C7 counterexample: the most recently categorized record for "X" carries
`"Shopping"` (timestamp 5), but the pipeline's lookup — `limit(1)` with no
ordering — takes the first row the store yields and the assembled
transaction gets `"Food"`. -/
theorem claim_C7_cex :
    specMostRecentCategory env7.table "X" = some "Shopping" ∧
    (handleMessage env7 "credit card #1111 charged EGP 10.00 at X").record.category =
      "Food" ∧
    ("Food" : String) ≠ "Shopping" := by
  decide

/-! ### C9: amountBase shape -/

theorem amountToRat_nonneg (l : List Char) : 0 ≤ amountToRat l := by
  unfold amountToRat
  positivity

theorem findMap_some_exists (f : List Char → Option α) (l : List Char) (v : α)
    (h : findMap f l = some v) : ∃ t, f t = some v := by
  induction l with
  | nil => exact ⟨[], h⟩
  | cons c cs ih =>
    unfold findMap at h
    rcases hf : f (c :: cs) with _ | w
    · rw [hf] at h
      exact ih h
    · rw [hf] at h
      cases h
      exact ⟨c :: cs, hf⟩

theorem chargedCont_snd_nonneg (r : List Char) (v : SupportedCurrency × ℚ)
    (h : chargedCont r = some v) : 0 ≤ v.2 := by
  unfold chargedCont at h
  split at h
  · cases h
  · split at h
    · cases h
    · split at h
      · cases h
      · cases h
        exact amountToRat_nonneg _

theorem chargedWithFor_snd_nonneg (r : List Char) (v : SupportedCurrency × ℚ)
    (h : chargedWithFor r = some v) : 0 ≤ v.2 := by
  unfold chargedWithFor at h
  split at h
  · split at h
    · exact chargedCont_snd_nonneg _ _ h
    · cases h
  · cases h

theorem chargedAt_snd_nonneg (l : List Char) (v : SupportedCurrency × ℚ)
    (h : chargedAt l = some v) : 0 ≤ v.2 := by
  unfold chargedAt at h
  split at h
  · split at h
    · cases h
      exact chargedWithFor_snd_nonneg _ _ (by assumption)
    · exact chargedCont_snd_nonneg _ _ h
  · split at h
    · exact chargedCont_snd_nonneg _ _ h
    · cases h

theorem arabic1At_snd_nonneg (l : List Char) (v : SupportedCurrency × ℚ)
    (h : arabic1At l = some v) : 0 ≤ v.2 := by
  unfold arabic1At at h
  split at h
  · cases h
  · split at h
    · cases h
    · split at h
      · cases h
      · cases h
        exact amountToRat_nonneg _

theorem arabic2At_snd_nonneg (l : List Char) (v : SupportedCurrency × ℚ)
    (h : arabic2At l = some v) : 0 ≤ v.2 := by
  unfold arabic2At at h
  split at h
  · cases h
  · split at h
    · cases h
    · split at h
      · cases h
        exact amountToRat_nonneg _
      · cases h

theorem parseChargedAmount_snd_nonneg (msg : String) (cur : SupportedCurrency)
    (a : ℚ) (h : parseChargedAmount msg = some (cur, a)) : 0 ≤ a := by
  unfold parseChargedAmount at h
  split at h
  · cases h
    obtain ⟨t, ht⟩ := findMap_some_exists _ _ _ (by assumption)
    exact chargedAt_snd_nonneg t _ ht
  · split at h
    · cases h
      obtain ⟨t, ht⟩ := findMap_some_exists _ _ _ (by assumption)
      exact arabic1At_snd_nonneg t _ ht
    · obtain ⟨t, ht⟩ := findMap_some_exists _ _ _ h
      exact arabic2At_snd_nonneg t _ ht

theorem overrideRate_pos (cfg : FxConfig) (cur : SupportedCurrency) (r : ℚ)
    (h : overrideRate cfg cur = some r) : 0 < r := by
  unfold overrideRate at h
  split at h
  · split at h
    · cases h
      assumption
    · cases h
  · cases h

theorem fxFetchStep_ok_pos (cache : FxCache) (now : ℤ) (fetch : Option FxFetch)
    (cur : SupportedCurrency) (r : ℚ)
    (h : (fxFetchStep cache now fetch cur).1 = .ok r) : 0 < r := by
  rcases fetch with _ | ⟨ok, rate⟩
  · cases h
  · rcases ok with _ | _
    · cases h
    · rcases rate with _ | q
      · cases h
      · by_cases hq : 0 < q
        · have h' : (Except.ok q : Except Unit ℚ) = .ok r := by
            simpa [fxFetchStep, hq] using h
          cases h'
          exact hq
        · rw [show (fxFetchStep cache now (some ⟨true, some q⟩) cur).1 =
              .error () from by simp [fxFetchStep, hq]] at h
          cases h

theorem getToEgpRate_ok_pos (cfg : FxConfig) (cache : FxCache) (now : ℤ)
    (fetch : Option FxFetch) (cur : SupportedCurrency) (r : ℚ)
    (hWF : ∀ c e, cache c = some e → 0 < e.rate)
    (h : (getToEgpRate cfg cache now fetch cur).1 = .ok r) : 0 < r := by
  by_cases hcur : cur = .EGP
  · rw [hcur] at h
    have h' : (Except.ok 1 : Except Unit ℚ) = .ok r := h
    cases h'
    norm_num
  · rcases hov : overrideRate cfg cur with _ | n
    · rw [getToEgpRate_override_none cfg cache now fetch cur hcur hov] at h
      rcases hcc : cache cur with _ | e
      · rw [hcc] at h
        exact fxFetchStep_ok_pos cache now fetch cur r h
      · rw [hcc] at h
        by_cases hfresh : now - e.obsAt < sixHoursMs
        · have h' : (if now - e.obsAt < sixHoursMs
              then ((Except.ok e.rate : Except Unit ℚ), cache, false)
              else fxFetchStep cache now fetch cur).1 = .ok r := h
          rw [if_pos hfresh] at h'
          have h'' : (Except.ok e.rate : Except Unit ℚ) = .ok r := h'
          cases h''
          exact hWF cur e hcc
        · have h' : (if now - e.obsAt < sixHoursMs
              then ((Except.ok e.rate : Except Unit ℚ), cache, false)
              else fxFetchStep cache now fetch cur).1 = .ok r := h
          rw [if_neg hfresh] at h'
          exact fxFetchStep_ok_pos cache now fetch cur r h'
    · have hres : (getToEgpRate cfg cache now fetch cur).1 = .ok n := by
        unfold getToEgpRate
        rw [if_neg hcur]
        unfold overrideRate at hov
        rcases he : cfg.envRate cur with _ | ov
        · rw [he] at hov
          cases hov
        · rcases ov with _ | m
          · rw [he] at hov
            have hov' : (none : Option ℚ) = some n := hov
            cases hov'
          · rw [he] at hov
            have hov' : (if 0 < m then some m else none : Option ℚ) = some n := hov
            by_cases hm : 0 < m
            · rw [if_pos hm] at hov'
              cases hov'
              simp [he, hm]
            · rw [if_neg hm] at hov'
              cases hov'
      have : (Except.ok n : Except Unit ℚ) = .ok r := hres.symm.trans h
      cases this
      exact overrideRate_pos cfg cur r hov

/-- C9 counterexample: the message `"qqq"` resolves no amount; the pipeline
persists and returns `amountBase = 0`, which is not strictly positive. -/
theorem claim_C9_cex :
    (∃ b, (handleMessage env0 "qqq").response = .success b ∧ b.amount = 0) ∧
    (handleMessage env0 "qqq").record.amount = 0 := by
  have hamt : amountEgpOf env0 "qqq" = 0 :=
    amountEgp_zero env0 "qqq"
      (originalAmount_unresolved env0 "qqq" (by decide) (by decide))
  exact ⟨⟨_, handleMessage_success_body env0 "qqq" rfl, hamt⟩, hamt⟩

/-- C9 (amended): when the charged amount was extracted by the regex parser
and the FX conversion succeeded (the cache being well formed), the
persisted and returned `amountBase` equals the original amount times the
rate rounded to two decimal places — hence a nonnegative decimal
representable with 2 decimal places.  It is not strictly positive in
general: a message with no resolvable amount is persisted with
`amountBase = 0` (see the counterexample), so "positive" only holds in the
weak sense. -/
theorem claim_C9 (env : Env) (msg : String) (cur : SupportedCurrency) (amt r : ℚ)
    (hch : parseChargedAmount msg = some (cur, amt))
    (hfx : (handleMessage env msg).fxResult = .ok r)
    (hWF : ∀ c e, env.fxCache c = some e → 0 < e.rate) :
    (handleMessage env msg).record.amount = toFixed2 (amt * r) ∧
    0 ≤ (handleMessage env msg).record.amount ∧
    ∃ z : ℤ, (handleMessage env msg).record.amount * 100 = (z : ℚ) := by
  have hoa : originalAmountOf env msg = amt := by
    unfold originalAmountOf
    rw [hch]
    rfl
  have hfx' : (fxOf env msg).1 = .ok r := hfx
  have hamt : (handleMessage env msg).record.amount = toFixed2 (amt * r) := by
    show amountEgpOf env msg = _
    unfold amountEgpOf
    simp only [hfx']
    rw [hoa]
  have hr : 0 < r := getToEgpRate_ok_pos env.fxConfig env.fxCache env.now env.fxFetch
    (originalCurrencyOf env msg) r hWF hfx'
  have ha : 0 ≤ amt := parseChargedAmount_snd_nonneg msg cur amt hch
  refine ⟨hamt, ?_, ?_⟩
  · rw [hamt, toFixed2_eq_round]
    have hprod : (0 : ℚ) ≤ amt * r * 100 := by positivity
    have hround : (0 : ℤ) ≤ round (amt * r * 100) := by
      rw [round_eq]
      exact Int.floor_nonneg.mpr (by linarith)
    positivity
  · refine ⟨round (amt * r * 100), ?_⟩
    rw [hamt, toFixed2_eq_round]
    field_simp

theorem claim_C9_witness :
    (handleMessage env0 "credit card #5233 charged EGP 150.00 at Starbucks").record.amount =
      toFixed2 (amountToRat ['1', '5', '0', '.', '0', '0'] * 1) ∧
    0 ≤ (handleMessage env0
      "credit card #5233 charged EGP 150.00 at Starbucks").record.amount ∧
    ∃ z : ℤ, (handleMessage env0
      "credit card #5233 charged EGP 150.00 at Starbucks").record.amount * 100 = (z : ℚ) :=
  claim_C9 env0 "credit card #5233 charged EGP 150.00 at Starbucks" .EGP
    (amountToRat ['1', '5', '0', '.', '0', '0']) 1 rfl rfl
    (fun c e h => by cases h)

/-! ### C1: the canonical English charge message -/

/-- The canonical message shape
`"credit card #NNNN charged CUR X.YY at MERCHANT"` of spec §8. -/
def canonicalMsg (n cur a m : String) : String :=
  "credit card #" ++ n ++ " charged " ++ cur ++ " " ++ a ++ " at " ++ m

/-- C1 counterexample: the claim quantifies over every MERCHANT, but a
merchant containing a transfer-vocabulary word trips the transfer
classifier: for MERCHANT = `"Wallet"` (four digits `1234`, currency EGP,
amount 150.00 — a perfectly canonical message) the assembled transaction
has merchant `"Transfer"`, not `"Wallet"`. -/
theorem claim_C1_cex :
    canonicalMsg "1234" "EGP" "150.00" "Wallet" =
      "credit card #1234 charged EGP 150.00 at Wallet" ∧
    isLikelyTransferMessage (canonicalMsg "1234" "EGP" "150.00" "Wallet") = true ∧
    (handleMessage env0 (canonicalMsg "1234" "EGP" "150.00" "Wallet")).record.merchant =
      "Transfer" ∧
    ("Transfer" : String) ≠ "Wallet" := by
  decide

/-! #### Generic scanning lemmas -/

theorem findMap_cons_none (f : List Char → Option α) (c : Char) (cs : List Char)
    (h : f (c :: cs) = none) : findMap f (c :: cs) = findMap f cs := by
  show (match f (c :: cs) with | some v => some v | none => findMap f cs) = _
  rw [h]

theorem findMap_skip (f : List Char → Option α) (p : Char → Prop)
    (hstep : ∀ ch cs, p ch → f (ch :: cs) = none) :
    ∀ (l₁ : List Char), (∀ ch ∈ l₁, p ch) → ∀ l₂,
      findMap f (l₁ ++ l₂) = findMap f l₂ := by
  intro l₁
  induction l₁ with
  | nil => intro _ l₂; rfl
  | cons c cs ih =>
    intro hall l₂
    rw [List.cons_append,
      findMap_cons_none f c (cs ++ l₂) (hstep c _ (hall c (List.mem_cons_self c cs)))]
    exact ih (fun ch hch => hall ch (List.mem_cons_of_mem c hch)) l₂

theorem findMapB_cons_none (f : Option Char → List Char → Option α) (prev : Option Char)
    (c : Char) (cs : List Char) (h : f prev (c :: cs) = none) :
    findMapB f prev (c :: cs) = findMapB f (some c) cs := by
  show (match f prev (c :: cs) with | some v => some v | none => findMapB f (some c) cs) = _
  rw [h]

theorem findMapB_skip (f : Option Char → List Char → Option α) (p : Char → Prop)
    (hstep : ∀ prev ch cs, p ch → f prev (ch :: cs) = none) :
    ∀ (l₁ : List Char), (∀ ch ∈ l₁, p ch) → ∀ prev l₂,
      ∃ prev', findMapB f prev (l₁ ++ l₂) = findMapB f prev' l₂ ∧
        (prev' = prev ∨ ∃ ch, prev' = some ch ∧ p ch) := by
  intro l₁
  induction l₁ with
  | nil => intro _ prev l₂; exact ⟨prev, rfl, Or.inl rfl⟩
  | cons c cs ih =>
    intro hall prev l₂
    rw [List.cons_append,
      findMapB_cons_none f prev c (cs ++ l₂)
        (hstep prev c _ (hall c (List.mem_cons_self c cs)))]
    obtain ⟨prev', heq, hp⟩ :=
      ih (fun ch hch => hall ch (List.mem_cons_of_mem c hch)) (some c) l₂
    refine ⟨prev', heq, ?_⟩
    rcases hp with h1 | h2
    · exact Or.inr ⟨c, h1, hall c (List.mem_cons_self c cs)⟩
    · exact Or.inr h2

theorem findMap_some_suffix (f : List Char → Option α) (l : List Char) (v : α)
    (h : findMap f l = some v) : ∃ t, t <:+ l ∧ f t = some v := by
  induction l with
  | nil => exact ⟨[], List.nil_suffix, h⟩
  | cons c cs ih =>
    unfold findMap at h
    rcases hf : f (c :: cs) with _ | w
    · rw [hf] at h
      obtain ⟨t, hsuf, hft⟩ := ih h
      exact ⟨t, hsuf.trans (List.suffix_cons c cs), hft⟩
    · rw [hf] at h
      cases h
      exact ⟨c :: cs, List.suffix_refl _, hf⟩

theorem findMapB_some_suffix (f : Option Char → List Char → Option α) (v : α) :
    ∀ (l : List Char) (prev : Option Char), findMapB f prev l = some v →
      ∃ prev' t, t <:+ l ∧ f prev' t = some v := by
  intro l
  induction l with
  | nil => exact fun prev h => ⟨prev, [], List.nil_suffix, h⟩
  | cons c cs ih =>
    intro prev h
    unfold findMapB at h
    rcases hf : f prev (c :: cs) with _ | w
    · rw [hf] at h
      obtain ⟨prev', t, hsuf, hft⟩ := ih (some c) h
      exact ⟨prev', t, hsuf.trans (List.suffix_cons c cs), hft⟩
    · rw [hf] at h
      cases h
      exact ⟨prev, c :: cs, List.suffix_refl _, hf⟩

theorem spacesThen_some_suffix (cont : List Char → Option α) (v : α) :
    ∀ l : List Char, spacesThen cont l = some v →
      ∃ s, s <:+ l ∧ cont s = some v := by
  intro l
  induction l with
  | nil => intro h; cases h
  | cons c cs ih =>
    intro h
    have h' : (if isSpaceC c = true then
        (match spacesThen cont cs with | some v => some v | none => cont cs)
        else none) = some v := h
    by_cases hc : isSpaceC c = true
    · rw [if_pos hc] at h'
      rcases hs : spacesThen cont cs with _ | w
      · rw [hs] at h'
        exact ⟨cs, List.suffix_cons c cs, h'⟩
      · rw [hs] at h'
        cases h'
        obtain ⟨s, hsuf, hcont⟩ := ih hs
        exact ⟨s, hsuf.trans (List.suffix_cons c cs), hcont⟩
    · rw [if_neg hc] at h'
      cases h'

theorem lazyCap_some_suffix (tail : List Char → Bool) :
    ∀ (l v : List Char), lazyCap tail l = some v →
      ∃ s, s <:+ l ∧ tail s = true := by
  intro l
  induction l with
  | nil => intro v h; cases h
  | cons c cs ih =>
    intro v h
    have h' : (if dotOk c = true then
        (if tail cs then some [c] else (lazyCap tail cs).map (c :: ·))
        else none) = some v := h
    by_cases hc : dotOk c = true
    · rw [if_pos hc] at h'
      by_cases ht : tail cs = true
      · exact ⟨cs, List.suffix_cons c cs, ht⟩
      · rw [if_neg ht] at h'
        rcases hl : lazyCap tail cs with _ | w
        · rw [hl] at h'
          cases h'
        · obtain ⟨s, hsuf, htail⟩ := ih w hl
          exact ⟨s, hsuf.trans (List.suffix_cons c cs), htail⟩
    · rw [if_neg hc] at h'
      cases h'

theorem dropSpaces_suffix : ∀ l : List Char, dropSpaces l <:+ l := by
  intro l
  induction l with
  | nil => exact List.suffix_refl _
  | cons c cs ih =>
    show (if isSpaceC c = true then dropSpaces cs else c :: cs) <:+ c :: cs
    by_cases hc : isSpaceC c = true
    · rw [if_pos hc]
      exact ih.trans (List.suffix_cons c cs)
    · rw [if_neg hc]

theorem matchSpaces1_suffix (l r : List Char) (h : matchSpaces1 l = some r) :
    r <:+ l := by
  rcases l with _ | ⟨c, cs⟩
  · cases h
  · have h' : (if isSpaceC c = true then some (dropSpaces cs) else none) = some r := h
    by_cases hc : isSpaceC c = true
    · rw [if_pos hc] at h'
      cases h'
      exact (dropSpaces_suffix cs).trans (List.suffix_cons c cs)
    · rw [if_neg hc] at h'
      cases h'

theorem matchCI_suffix (p : List Char) : ∀ (l r : List Char),
    matchCI p l = some r → r <:+ l := by
  induction p with
  | nil =>
    intro l r h
    cases h
    exact List.suffix_refl _
  | cons q qs ih =>
    intro l r h
    rcases l with _ | ⟨c, cs⟩
    · cases h
    · have h' : (if lowerEq c q = true then matchCI qs cs else none) = some r := h
      by_cases hc : lowerEq c q = true
      · rw [if_pos hc] at h'
        exact (ih cs r h').trans (List.suffix_cons c cs)
      · rw [if_neg hc] at h'
        cases h'

/-! #### A message without `/`, `-` cannot carry the dated patterns -/

theorem matchDateSep_mem (l r : List Char) (h : matchDateSep l = some r) :
    '/' ∈ l ∨ '-' ∈ l := by
  rcases l with _ | ⟨c, cs⟩
  · cases h
  · have h' : (if c = '/' ∨ c = '-' then some cs else none) = some r := h
    by_cases hc : c = '/' ∨ c = '-'
    · rcases hc with hc | hc
      · exact Or.inl (by rw [← hc]; exact List.mem_cons_self c cs)
      · exact Or.inr (by rw [← hc]; exact List.mem_cons_self c cs)
    · rw [if_neg hc] at h'
      cases h'

theorem matchD12Sep_mem (l r : List Char) (h : matchD12Sep l = some r) :
    '/' ∈ l ∨ '-' ∈ l := by
  rcases l with _ | ⟨a, _ | ⟨b, rest⟩⟩
  · cases h
  · cases h
  · have h' : (if isDigitC a = true then
        (if isDigitC b = true then matchDateSep rest else matchDateSep (b :: rest))
        else none) = some r := h
    by_cases ha : isDigitC a = true
    · rw [if_pos ha] at h'
      by_cases hb : isDigitC b = true
      · rw [if_pos hb] at h'
        rcases matchDateSep_mem rest r h' with hm | hm
        · exact Or.inl (List.mem_cons_of_mem a (List.mem_cons_of_mem b hm))
        · exact Or.inr (List.mem_cons_of_mem a (List.mem_cons_of_mem b hm))
      · rw [if_neg hb] at h'
        rcases matchDateSep_mem (b :: rest) r h' with hm | hm
        · exact Or.inl (List.mem_cons_of_mem a hm)
        · exact Or.inr (List.mem_cons_of_mem a hm)
    · rw [if_neg ha] at h'
      cases h'

theorem matchDateB_mem (l : List Char) (h : matchDateB l = true) :
    '/' ∈ l ∨ '-' ∈ l := by
  unfold matchDateB at h
  rcases hd : matchD12Sep l with _ | r
  · rw [hd] at h
    cases h
  · exact matchD12Sep_mem l r hd

theorem onTail_mem (l : List Char) (h : onTail l = true) : '/' ∈ l ∨ '-' ∈ l := by
  unfold onTail at h
  rcases h1 : matchSpaces1 l with _ | r
  · rw [h1] at h
    cases h
  · simp only [h1] at h
    rcases h2 : matchCI ['o', 'n'] r with _ | r2
    · simp only [h2] at h
      cases h
    · simp only [h2] at h
      rcases h3 : matchSpaces1 r2 with _ | r3
      · simp only [h3] at h
        cases h
      · simp only [h3] at h
        have hsub : ∀ x, x ∈ r3 → x ∈ l := fun x hx =>
          (matchSpaces1_suffix l r h1).subset
            ((matchCI_suffix ['o', 'n'] r r2 h2).subset
              ((matchSpaces1_suffix r2 r3 h3).subset hx))
        rcases matchDateB_mem r3 h with hm | hm
        · exact Or.inl (hsub '/' hm)
        · exact Or.inr (hsub '-' hm)

theorem onDateAt_mem (prev : Option Char) (l cap : List Char)
    (h : onDateAt prev l = some cap) : '/' ∈ l ∨ '-' ∈ l := by
  unfold onDateAt at h
  by_cases hp : prevIsWord prev = true
  · rw [if_pos hp] at h
    cases h
  · rw [if_neg hp] at h
    rcases hc : matchCI ['a', 't'] l with _ | r
    · rw [hc] at h
      cases h
    · rw [hc] at h
      obtain ⟨s, hsuf, hlz⟩ := spacesThen_some_suffix (lazyCap onTail) cap r h
      obtain ⟨s2, hsuf2, htail⟩ := lazyCap_some_suffix onTail s cap hlz
      have hsub : ∀ x, x ∈ s2 → x ∈ l := fun x hx =>
        (matchCI_suffix ['a', 't'] l r hc).subset (hsuf.subset (hsuf2.subset hx))
      rcases onTail_mem s2 htail with hm | hm
      · exact Or.inl (hsub '/' hm)
      · exact Or.inr (hsub '-' hm)

theorem onDate_none (l : List Char) (hsep : ∀ ch ∈ l, ch ≠ '/' ∧ ch ≠ '-') :
    findMapB onDateAt none l = none := by
  rcases hres : findMapB onDateAt none l with _ | cap
  · rfl
  · obtain ⟨prev', t, hsuf, hat⟩ := findMapB_some_suffix onDateAt cap l none hres
    rcases onDateAt_mem prev' t cap hat with hm | hm
    · exact absurd rfl (hsep '/' (hsuf.subset hm)).1
    · exact absurd rfl (hsep '-' (hsuf.subset hm)).2

/-! #### A merchant without `:` cannot carry the time-stop terminator -/

theorem matchColon_mem (l r : List Char) (h : matchColon l = some r) : ':' ∈ l := by
  rcases l with _ | ⟨c, cs⟩
  · cases h
  · have h' : (if c = ':' then some cs else none) = some r := h
    by_cases hc : c = ':'
    · rw [← hc]
      exact List.mem_cons_self c cs
    · rw [if_neg hc] at h'
      cases h'

theorem matchD12Colon_mem (l r : List Char) (h : matchD12Colon l = some r) :
    ':' ∈ l := by
  rcases l with _ | ⟨a, _ | ⟨b, rest⟩⟩
  · cases h
  · cases h
  · have h' : (if isDigitC a = true then
        (if isDigitC b = true then matchColon rest else matchColon (b :: rest))
        else none) = some r := h
    by_cases ha : isDigitC a = true
    · rw [if_pos ha] at h'
      by_cases hb : isDigitC b = true
      · rw [if_pos hb] at h'
        exact List.mem_cons_of_mem a (List.mem_cons_of_mem b (matchColon_mem rest r h'))
      · rw [if_neg hb] at h'
        exact List.mem_cons_of_mem a (matchColon_mem (b :: rest) r h')
    · rw [if_neg ha] at h'
      cases h'

theorem timeStopTail_mem (l : List Char) (h : timeStopTail l = true) : ':' ∈ l := by
  unfold timeStopTail at h
  rcases h1 : matchSpaces1 l with _ | r
  · rw [h1] at h
    cases h
  · simp only [h1] at h
    rcases h2 : matchCI ['a', 't'] r with _ | r2
    · simp only [h2] at h
      cases h
    · simp only [h2] at h
      rcases h3 : matchSpaces1 r2 with _ | r3
      · simp only [h3] at h
        cases h
      · simp only [h3] at h
        rcases h4 : matchD12Colon r3 with _ | r4
        · simp only [h4] at h
          cases h
        · exact (matchSpaces1_suffix l r h1).subset
            ((matchCI_suffix ['a', 't'] r r2 h2).subset
              ((matchSpaces1_suffix r2 r3 h3).subset (matchD12Colon_mem r3 r4 h4)))

theorem fallbackTail_false (l : List Char) (hne : l ≠ [])
    (hcolon : ':' ∉ l) (hdot : ∀ ch ∈ l, ch ≠ '.') : fallbackTail l = false := by
  unfold fallbackTail
  have h1 : timeStopTail l = false := by
    rcases ht : timeStopTail l with _ | _
    · rfl
    · exact absurd (timeStopTail_mem l ht) hcolon
  have h2 : dotOrEnd l = false := by
    rcases l with _ | ⟨c, cs⟩
    · exact absurd rfl hne
    · show decide (c = '.') = false
      simp
      exact hdot c (List.mem_cons_self c cs)
  rw [h1, h2]
  rfl

/-! #### Positive-match building blocks -/

theorem bfalse {b : Bool} (h : b = false) : ¬ b = true := by simp [h]

theorem matchCI_cons_pos (p c : Char) (ps cs : List Char) (h : lowerEq c p = true) :
    matchCI (p :: ps) (c :: cs) = matchCI ps cs := by
  show (if lowerEq c p = true then matchCI ps cs else none) = _
  rw [if_pos h]

theorem matchCI_cons_neg (p c : Char) (ps cs : List Char) (h : lowerEq c p = false) :
    matchCI (p :: ps) (c :: cs) = none := by
  show (if lowerEq c p = true then matchCI ps cs else none) = _
  rw [if_neg (bfalse h)]

theorem isDigitC_elim (c : Char) (h : isDigitC c = true) :
    48 ≤ c.toNat ∧ c.toNat ≤ 57 := by
  simpa [isDigitC] using h

theorem digit_toNat_ne (c d : Char) (hc : isDigitC c = true)
    (hd : ¬(48 ≤ d.toNat ∧ d.toNat ≤ 57)) : c ≠ d := by
  obtain ⟨h1, h2⟩ := isDigitC_elim c hc
  intro heq
  rw [heq] at h1 h2
  exact hd ⟨h1, h2⟩

theorem lowerEq_digit_letter (c d : Char) (hc : isDigitC c = true)
    (hd : 97 ≤ d.toNat ∧ d.toNat ≤ 122) : lowerEq c d = false := by
  obtain ⟨h1, h2⟩ := isDigitC_elim c hc
  unfold lowerEq asciiLower
  rw [if_neg (by omega : ¬(65 ≤ c.toNat ∧ c.toNat ≤ 90)),
    if_neg (by omega : ¬(65 ≤ d.toNat ∧ d.toNat ≤ 90))]
  simp only [decide_eq_false_iff_not]
  intro heq
  have := congrArg Char.toNat heq
  omega

theorem isSpaceC_digit (c : Char) (h : isDigitC c = true) : isSpaceC c = false := by
  obtain ⟨h1, h2⟩ := isDigitC_elim c h
  rcases hs : isSpaceC c with _ | _
  · rfl
  · exfalso
    unfold isSpaceC at hs
    simp only [Bool.or_eq_true, decide_eq_true_eq] at hs
    rcases hs with ((hc | hc) | hc) | hc <;>
      (rw [hc] at h1 h2; revert h1 h2; decide)

theorem spanP_append (p : Char → Bool) :
    ∀ (l₁ : List Char), (∀ ch ∈ l₁, p ch = true) →
      ∀ (c : Char), p c = false → ∀ l₂ : List Char,
      spanP p (l₁ ++ c :: l₂) = (l₁, c :: l₂) := by
  intro l₁
  induction l₁ with
  | nil =>
    intro _ c hc l₂
    show (if p c = true then
        ((c :: (spanP p l₂).1), (spanP p l₂).2) else ([], c :: l₂)) = ([], c :: l₂)
    rw [if_neg (bfalse hc)]
  | cons d ds ih =>
    intro hall c hc l₂
    show (if p d = true then
        ((d :: (spanP p (ds ++ c :: l₂)).1), (spanP p (ds ++ c :: l₂)).2)
        else ([], d :: (ds ++ c :: l₂))) = (d :: ds, c :: l₂)
    rw [if_pos (hall d (List.mem_cons_self d ds)),
      ih (fun ch hch => hall ch (List.mem_cons_of_mem d hch)) c hc l₂]

theorem dropWhile_idem (p : Char → Bool) (l : List Char) :
    (l.dropWhile p).dropWhile p = l.dropWhile p := by
  induction l with
  | nil => rfl
  | cons c cs ih =>
    by_cases hc : p c = true
    · simp [List.dropWhile_cons, hc, ih]
    · simp [List.dropWhile_cons, hc]

theorem trimChars_dropWhile (l : List Char) :
    trimChars (l.dropWhile isSpaceC) = trimChars l := by
  unfold trimChars
  rw [dropWhile_idem]

theorem mem_of_dropWhile (p : Char → Bool) (l : List Char) (ch : Char)
    (h : ch ∈ l.dropWhile p) : ch ∈ l := by
  induction l with
  | nil => cases h
  | cons c cs ih =>
    by_cases hc : p c = true
    · rw [List.dropWhile_cons, if_pos hc] at h
      exact List.mem_cons_of_mem c (ih h)
    · rw [List.dropWhile_cons, if_neg hc] at h
      exact h

theorem lazyCap_full (tail : List Char → Bool) (htail : tail [] = true) :
    ∀ l : List Char, l ≠ [] → (∀ ch ∈ l, dotOk ch = true) →
      (∀ s, s <:+ l → s ≠ [] → s.length < l.length → tail s = false) →
      lazyCap tail l = some l := by
  intro l
  induction l with
  | nil => intro h; exact absurd rfl h
  | cons c cs ih =>
    intro _ hdot hsuf
    show (if dotOk c = true then
        (if tail cs then some [c] else (lazyCap tail cs).map (c :: ·))
        else none) = some (c :: cs)
    rw [if_pos (hdot c (List.mem_cons_self c cs))]
    rcases hcs : cs with _ | ⟨d, ds⟩
    · rw [if_pos htail]
    · have hne : d :: ds ≠ [] := by simp
      have hfalse : tail (d :: ds) = false := by
        refine hsuf (d :: ds) ?_ hne (by rw [hcs]; simp)
        rw [← hcs]
        exact List.suffix_cons c cs
      rw [if_neg (bfalse hfalse)]
      rw [← hcs] at hne hfalse ⊢
      rw [ih hne (fun ch hch => hdot ch (List.mem_cons_of_mem c hch))
        (fun s hs hsne hslen =>
          hsuf s (hs.trans (List.suffix_cons c cs)) hsne
            (by simp only [List.length_cons]; omega))]
      rfl

theorem spacesThen_dropWhile (cont : List Char → Option α) :
    ∀ (l : List Char), (cont (l.dropWhile isSpaceC)).isSome = true →
      ∀ c, isSpaceC c = true →
      spacesThen cont (c :: l) = cont (l.dropWhile isSpaceC) := by
  intro l
  induction l with
  | nil =>
    intro _ c hc
    show (if isSpaceC c = true then
        (match spacesThen cont [] with | some v => some v | none => cont [])
        else none) = cont ([].dropWhile isSpaceC)
    rw [if_pos hc]
    rfl
  | cons d ds ih =>
    intro hsome c hc
    show (if isSpaceC c = true then
        (match spacesThen cont (d :: ds) with
          | some v => some v | none => cont (d :: ds))
        else none) = cont ((d :: ds).dropWhile isSpaceC)
    rw [if_pos hc]
    by_cases hd : isSpaceC d = true
    · have hdw : (d :: ds).dropWhile isSpaceC = ds.dropWhile isSpaceC := by
        rw [List.dropWhile_cons, if_pos hd]
      rw [hdw] at hsome ⊢
      rw [ih hsome d hd]
      rcases hv : cont (ds.dropWhile isSpaceC) with _ | v
      · rw [hv] at hsome
        cases hsome
      · rfl
    · have hdw : (d :: ds).dropWhile isSpaceC = d :: ds := by
        rw [List.dropWhile_cons, if_neg hd]
      rw [hdw] at hsome ⊢
      have hsp : spacesThen cont (d :: ds) = none := by
        show (if isSpaceC d = true then
            (match spacesThen cont ds with | some v => some v | none => cont ds)
            else none) = none
        rw [if_neg hd]
      rw [hsp]

theorem findMap_cons_some (f : List Char → Option α) (c : Char) (cs : List Char)
    (v : α) (h : f (c :: cs) = some v) : findMap f (c :: cs) = some v := by
  show (match f (c :: cs) with | some v => some v | none => findMap f cs) = _
  rw [h]

theorem findMapB_cons_some (f : Option Char → List Char → Option α) (prev : Option Char)
    (c : Char) (cs : List Char) (v : α) (h : f prev (c :: cs) = some v) :
    findMapB f prev (c :: cs) = some v := by
  show (match f prev (c :: cs) with
    | some v => some v | none => findMapB f (some c) cs) = _
  rw [h]

theorem list_len4 (l : List Char) (h : l.length = 4) :
    ∃ a b c d, l = [a, b, c, d] := by
  rcases l with _ | ⟨a, l⟩
  · simp at h
  rcases l with _ | ⟨b, l⟩
  · simp at h
  rcases l with _ | ⟨c, l⟩
  · simp at h
  rcases l with _ | ⟨d, l⟩
  · simp at h
  rcases l with _ | ⟨e, l⟩
  · exact ⟨a, b, c, d, rfl⟩
  · simp only [List.length_cons] at h
    omega

/-! #### The canonical message through each extractor -/

theorem hashCardAt_ne (ch : Char) (cs : List Char) (h : ch ≠ '#') :
    hashCardAt (ch :: cs) = none := by
  show (if ch = '#' then fourDigitsB cs else none) = none
  rw [if_neg h]

theorem hashCardAt_pos (d1 d2 d3 d4 e : Char) (t : List Char)
    (h1 : isDigitC d1 = true) (h2 : isDigitC d2 = true) (h3 : isDigitC d3 = true)
    (h4 : isDigitC d4 = true) (he : isWordC e = false) :
    hashCardAt ('#' :: d1 :: d2 :: d3 :: d4 :: e :: t) =
      some (String.mk [d1, d2, d3, d4]) := by
  show (if '#' = '#' then fourDigitsB (d1 :: d2 :: d3 :: d4 :: e :: t) else none) = _
  rw [if_pos rfl]
  simp [fourDigitsB, h1, h2, h3, h4, he]

theorem canonicalMsg_data (n cur a m : String) :
    (canonicalMsg n cur a m).data =
      ['c', 'r', 'e', 'd', 'i', 't', ' ', 'c', 'a', 'r', 'd', ' ', '#'] ++
        (n.data ++ (' ' :: (['c', 'h', 'a', 'r', 'g', 'e', 'd', ' '] ++
          (cur.data ++ (' ' :: (a.data ++
            (' ' :: 'a' :: 't' :: ' ' :: m.data))))))) := by
  show ("credit card #" ++ n ++ " charged " ++ cur ++ " " ++ a ++ " at " ++ m).data = _
  simp [String.data_append, List.append_assoc]

theorem parseCardLast4_canonical (n cur a m : String)
    (hn4 : n.data.length = 4) (hnd : ∀ ch ∈ n.data, isDigitC ch = true) :
    parseCardLast4 (canonicalMsg n cur a m) = some n := by
  obtain ⟨d1, d2, d3, d4, hn⟩ := list_len4 n.data hn4
  have h1 : isDigitC d1 = true := hnd d1 (by rw [hn]; simp)
  have h2 : isDigitC d2 = true := hnd d2 (by rw [hn]; simp)
  have h3 : isDigitC d3 = true := hnd d3 (by rw [hn]; simp)
  have h4 : isDigitC d4 = true := hnd d4 (by rw [hn]; simp)
  have hfind : findMap hashCardAt (canonicalMsg n cur a m).data = some n := by
    rw [canonicalMsg_data, hn]
    have hskip := findMap_skip hashCardAt (fun ch => ch ≠ '#')
      (fun ch cs h => hashCardAt_ne ch cs h)
      ['c', 'r', 'e', 'd', 'i', 't', ' ', 'c', 'a', 'r', 'd', ' ']
      (by decide)
    rw [show ('c' :: 'r' :: 'e' :: 'd' :: 'i' :: 't' :: ' ' :: 'c' :: 'a' :: 'r' ::
        'd' :: ' ' :: '#' :: [] : List Char) ++
        ([d1, d2, d3, d4] ++ (' ' :: (['c', 'h', 'a', 'r', 'g', 'e', 'd', ' '] ++
          (cur.data ++ (' ' :: (a.data ++ (' ' :: 'a' :: 't' :: ' ' :: m.data))))))) =
        ['c', 'r', 'e', 'd', 'i', 't', ' ', 'c', 'a', 'r', 'd', ' '] ++
        ('#' :: d1 :: d2 :: d3 :: d4 :: ' ' :: (['c', 'h', 'a', 'r', 'g', 'e', 'd', ' '] ++
          (cur.data ++ (' ' :: (a.data ++ (' ' :: 'a' :: 't' :: ' ' :: m.data))))))
      from by simp]
    rw [hskip _]
    rw [findMap_cons_some hashCardAt '#' _ (String.mk [d1, d2, d3, d4])
      (hashCardAt_pos d1 d2 d3 d4 ' ' _ h1 h2 h3 h4 (by decide))]
    have : String.mk [d1, d2, d3, d4] = n := by
      rw [← hn]
    rw [this]
  show (match findMap hashCardAt (canonicalMsg n cur a m).data with
    | some v => some v
    | none =>
      match findMap maskedCardAt (canonicalMsg n cur a m).data with
      | some v => some v
      | none => findMap endingCardAt (canonicalMsg n cur a m).data) = some n
  rw [hfind]

theorem dropSpaces_nospace (c : Char) (t : List Char) (h : isSpaceC c = false) :
    dropSpaces (c :: t) = c :: t := by
  show (if isSpaceC c = true then dropSpaces t else c :: t) = c :: t
  rw [if_neg (bfalse h)]

theorem matchSpaces1_space (c : Char) (t : List Char) (h : isSpaceC c = true) :
    matchSpaces1 (c :: t) = some (dropSpaces t) := by
  show (if isSpaceC c = true then some (dropSpaces t) else none) = _
  rw [if_pos h]

/-- The currency alternation consumes exactly one of the three canonical
uppercase currency tokens. -/
theorem matchCurrency_canonical (c : SupportedCurrency) (curd rest : List Char)
    (hcur : (curd = ['E', 'G', 'P'] ∧ c = .EGP) ∨ (curd = ['U', 'S', 'D'] ∧ c = .USD) ∨
      (curd = ['E', 'U', 'R'] ∧ c = .EUR)) :
    matchCurrency (curd ++ rest) = some (c, rest) := by
  rcases hcur with ⟨hc, hcc⟩ | ⟨hc, hcc⟩ | ⟨hc, hcc⟩ <;> subst hc <;> subst hcc
  · have e1 : matchCI ['e', 'g', 'p'] ('E' :: 'G' :: 'P' :: rest) = some rest := by
      rw [matchCI_cons_pos _ _ _ _ (by decide), matchCI_cons_pos _ _ _ _ (by decide),
        matchCI_cons_pos _ _ _ _ (by decide)]
      rfl
    show matchCurrency ('E' :: 'G' :: 'P' :: rest) = some (SupportedCurrency.EGP, rest)
    unfold matchCurrency
    simp only [e1]
  · have e1 : matchCI ['e', 'g', 'p'] ('U' :: 'S' :: 'D' :: rest) = none :=
      matchCI_cons_neg _ _ _ _ (by decide)
    have e2 : matchCI ['u', 's', 'd'] ('U' :: 'S' :: 'D' :: rest) = some rest := by
      rw [matchCI_cons_pos _ _ _ _ (by decide), matchCI_cons_pos _ _ _ _ (by decide),
        matchCI_cons_pos _ _ _ _ (by decide)]
      rfl
    show matchCurrency ('U' :: 'S' :: 'D' :: rest) = some (SupportedCurrency.USD, rest)
    unfold matchCurrency
    simp only [e1, e2]
  · have e1 : matchCI ['e', 'g', 'p'] ('E' :: 'U' :: 'R' :: rest) = none := by
      rw [matchCI_cons_pos _ _ _ _ (by decide)]
      exact matchCI_cons_neg _ _ _ _ (by decide)
    have e2 : matchCI ['u', 's', 'd'] ('E' :: 'U' :: 'R' :: rest) = none :=
      matchCI_cons_neg _ _ _ _ (by decide)
    have e3 : matchCI ['e', 'u', 'r'] ('E' :: 'U' :: 'R' :: rest) = some rest := by
      rw [matchCI_cons_pos _ _ _ _ (by decide), matchCI_cons_pos _ _ _ _ (by decide),
        matchCI_cons_pos _ _ _ _ (by decide)]
      rfl
    show matchCurrency ('E' :: 'U' :: 'R' :: rest) = some (SupportedCurrency.EUR, rest)
    unfold matchCurrency
    simp only [e1, e2, e3]

theorem matchAmount_pos (x y : List Char) (e : Char) (rest : List Char)
    (hx : x ≠ []) (hxd : ∀ ch ∈ x, isDigitC ch = true)
    (hy : y ≠ []) (hyd : ∀ ch ∈ y, isDigitC ch = true)
    (he1 : isDigitC e = false) :
    matchAmount (x ++ '.' :: (y ++ e :: rest)) = some (x ++ '.' :: y, e :: rest) := by
  have hspan1 : spanP (fun ch => isDigitC ch || ch = ',') (x ++ '.' :: (y ++ e :: rest)) =
      (x, '.' :: (y ++ e :: rest)) :=
    spanP_append _ x (fun ch hch => by simp [hxd ch hch]) '.' (by decide) _
  have hspan2 : spanP isDigitC (y ++ e :: rest) = (y, e :: rest) :=
    spanP_append _ y (fun ch hch => hyd ch hch) e he1 _
  unfold matchAmount
  simp only [hspan1, hspan2]
  rw [if_neg hx, if_neg hy]

/-- The `(?:\s+for)?` group cannot fire before a canonical currency token. -/
theorem chargedWithFor_canonical (c : SupportedCurrency) (curd rest : List Char)
    (hcur : (curd = ['E', 'G', 'P'] ∧ c = .EGP) ∨ (curd = ['U', 'S', 'D'] ∧ c = .USD) ∨
      (curd = ['E', 'U', 'R'] ∧ c = .EUR)) :
    chargedWithFor (' ' :: (curd ++ rest)) = none := by
  have hfor : matchCI ['f', 'o', 'r'] (curd ++ rest) = none := by
    rcases hcur with ⟨hc, _⟩ | ⟨hc, _⟩ | ⟨hc, _⟩ <;> subst hc <;>
      exact matchCI_cons_neg _ _ _ _ (by decide)
  have hdrop : dropSpaces (curd ++ rest) = curd ++ rest := by
    rcases hcur with ⟨hc, _⟩ | ⟨hc, _⟩ | ⟨hc, _⟩ <;> subst hc <;>
      exact dropSpaces_nospace _ _ (by decide)
  unfold chargedWithFor
  rw [matchSpaces1_space ' ' _ (by decide)]
  simp only [hdrop, hfor]

theorem chargedCont_canonical (c : SupportedCurrency) (curd x y rest : List Char)
    (hcur : (curd = ['E', 'G', 'P'] ∧ c = .EGP) ∨ (curd = ['U', 'S', 'D'] ∧ c = .USD) ∨
      (curd = ['E', 'U', 'R'] ∧ c = .EUR))
    (hx : x ≠ []) (hxd : ∀ ch ∈ x, isDigitC ch = true)
    (hy : y ≠ []) (hyd : ∀ ch ∈ y, isDigitC ch = true) :
    chargedCont (' ' :: (curd ++ (' ' :: (x ++ '.' :: (y ++ ' ' :: rest))))) =
      some (c, amountToRat (x ++ '.' :: y)) := by
  have hdrop : dropSpaces (curd ++ (' ' :: (x ++ '.' :: (y ++ ' ' :: rest)))) =
      curd ++ (' ' :: (x ++ '.' :: (y ++ ' ' :: rest))) := by
    rcases hcur with ⟨hc, _⟩ | ⟨hc, _⟩ | ⟨hc, _⟩ <;> subst hc <;>
      exact dropSpaces_nospace _ _ (by decide)
  have hdropx : dropSpaces (x ++ '.' :: (y ++ ' ' :: rest)) =
      x ++ '.' :: (y ++ ' ' :: rest) := by
    rcases x with _ | ⟨x0, xt⟩
    · exact absurd rfl hx
    · exact dropSpaces_nospace x0 _
        (isSpaceC_digit x0 (hxd x0 (List.mem_cons_self x0 xt)))
  have hds : dropSpaces (' ' :: (x ++ '.' :: (y ++ ' ' :: rest))) =
      x ++ '.' :: (y ++ ' ' :: rest) := by
    show (if isSpaceC ' ' = true then dropSpaces (x ++ '.' :: (y ++ ' ' :: rest))
      else ' ' :: (x ++ '.' :: (y ++ ' ' :: rest))) = x ++ '.' :: (y ++ ' ' :: rest)
    rw [if_pos (by decide), hdropx]
  unfold chargedCont
  rw [matchSpaces1_space ' ' _ (by decide)]
  simp only [hdrop, matchCurrency_canonical c curd _ hcur, hds,
    matchAmount_pos x y ' ' rest hx hxd hy hyd (by decide)]

theorem chargedAt_canonical (c : SupportedCurrency) (curd x y rest : List Char)
    (hcur : (curd = ['E', 'G', 'P'] ∧ c = .EGP) ∨ (curd = ['U', 'S', 'D'] ∧ c = .USD) ∨
      (curd = ['E', 'U', 'R'] ∧ c = .EUR))
    (hx : x ≠ []) (hxd : ∀ ch ∈ x, isDigitC ch = true)
    (hy : y ≠ []) (hyd : ∀ ch ∈ y, isDigitC ch = true) :
    chargedAt ('c' :: 'h' :: 'a' :: 'r' :: 'g' :: 'e' :: 'd' :: ' ' ::
        (curd ++ (' ' :: (x ++ '.' :: (y ++ ' ' :: rest))))) =
      some (c, amountToRat (x ++ '.' :: y)) := by
  have hci : matchCI ['c', 'h', 'a', 'r', 'g', 'e', 'd']
      ('c' :: 'h' :: 'a' :: 'r' :: 'g' :: 'e' :: 'd' :: ' ' ::
        (curd ++ (' ' :: (x ++ '.' :: (y ++ ' ' :: rest))))) =
      some (' ' :: (curd ++ (' ' :: (x ++ '.' :: (y ++ ' ' :: rest))))) := by
    rw [matchCI_cons_pos _ _ _ _ (by decide), matchCI_cons_pos _ _ _ _ (by decide),
      matchCI_cons_pos _ _ _ _ (by decide), matchCI_cons_pos _ _ _ _ (by decide),
      matchCI_cons_pos _ _ _ _ (by decide), matchCI_cons_pos _ _ _ _ (by decide),
      matchCI_cons_pos _ _ _ _ (by decide)]
    rfl
  unfold chargedAt
  simp only [hci, chargedWithFor_canonical c curd _ hcur,
    chargedCont_canonical c curd x y rest hcur hx hxd hy hyd]

theorem chargedAt_head (ch : Char) (cs : List Char)
    (h1 : lowerEq ch 'c' = false) (h2 : lowerEq ch 'o' = false) :
    chargedAt (ch :: cs) = none := by
  unfold chargedAt
  rw [matchCI_cons_neg _ _ _ _ h1, matchCI_cons_neg _ _ _ _ h2]

theorem chargedAt_c2 (ch : Char) (cs : List Char) (h : lowerEq ch 'h' = false) :
    chargedAt ('c' :: ch :: cs) = none := by
  unfold chargedAt
  rw [matchCI_cons_pos _ _ _ _ (by decide), matchCI_cons_neg _ _ _ _ h,
    matchCI_cons_neg _ _ _ _ (by decide)]

/-- The primary charged-amount regex on the canonical message: leftmost
match starts at `charged`, captures the currency token and the decimal
amount. -/
theorem parseChargedAmount_canonical (n cur a m : String) (c : SupportedCurrency)
    (x y : List Char)
    (hcur : (cur.data = ['E', 'G', 'P'] ∧ c = .EGP) ∨
      (cur.data = ['U', 'S', 'D'] ∧ c = .USD) ∨ (cur.data = ['E', 'U', 'R'] ∧ c = .EUR))
    (hnd : ∀ ch ∈ n.data, isDigitC ch = true)
    (ha : a.data = x ++ '.' :: y)
    (hx : x ≠ []) (hxd : ∀ ch ∈ x, isDigitC ch = true)
    (hy : y ≠ []) (hyd : ∀ ch ∈ y, isDigitC ch = true) :
    parseChargedAmount (canonicalMsg n cur a m) = some (c, amountToRat a.data) := by
  have hstepd : ∀ ch cs, isDigitC ch = true → chargedAt (ch :: cs) = none :=
    fun ch cs h => chargedAt_head ch cs
      (lowerEq_digit_letter ch 'c' h (by decide))
      (lowerEq_digit_letter ch 'o' h (by decide))
  have hfind : findMap chargedAt (canonicalMsg n cur a m).data =
      some (c, amountToRat (x ++ '.' :: y)) := by
    rw [canonicalMsg_data]
    show findMap chargedAt ('c' :: 'r' :: 'e' :: 'd' :: 'i' :: 't' :: ' ' ::
      'c' :: 'a' :: 'r' :: 'd' :: ' ' :: '#' ::
      (n.data ++ (' ' :: (['c', 'h', 'a', 'r', 'g', 'e', 'd', ' '] ++
        (cur.data ++ (' ' :: (a.data ++ (' ' :: 'a' :: 't' :: ' ' :: m.data)))))))) =
      some (c, amountToRat (x ++ '.' :: y))
    rw [findMap_cons_none chargedAt 'c' _ (chargedAt_c2 'r' _ (by decide)),
      findMap_cons_none chargedAt 'r' _ (chargedAt_head 'r' _ (by decide) (by decide)),
      findMap_cons_none chargedAt 'e' _ (chargedAt_head 'e' _ (by decide) (by decide)),
      findMap_cons_none chargedAt 'd' _ (chargedAt_head 'd' _ (by decide) (by decide)),
      findMap_cons_none chargedAt 'i' _ (chargedAt_head 'i' _ (by decide) (by decide)),
      findMap_cons_none chargedAt 't' _ (chargedAt_head 't' _ (by decide) (by decide)),
      findMap_cons_none chargedAt ' ' _ (chargedAt_head ' ' _ (by decide) (by decide)),
      findMap_cons_none chargedAt 'c' _ (chargedAt_c2 'a' _ (by decide)),
      findMap_cons_none chargedAt 'a' _ (chargedAt_head 'a' _ (by decide) (by decide)),
      findMap_cons_none chargedAt 'r' _ (chargedAt_head 'r' _ (by decide) (by decide)),
      findMap_cons_none chargedAt 'd' _ (chargedAt_head 'd' _ (by decide) (by decide)),
      findMap_cons_none chargedAt ' ' _ (chargedAt_head ' ' _ (by decide) (by decide)),
      findMap_cons_none chargedAt '#' _ (chargedAt_head '#' _ (by decide) (by decide)),
      findMap_skip chargedAt (fun ch => isDigitC ch = true) hstepd n.data hnd _,
      findMap_cons_none chargedAt ' ' _ (chargedAt_head ' ' _ (by decide) (by decide)),
      ha]
    rw [show ((x ++ '.' :: y) ++ (' ' :: 'a' :: 't' :: ' ' :: m.data)) =
        x ++ '.' :: (y ++ ' ' :: ('a' :: 't' :: ' ' :: m.data)) from by simp]
    show findMap chargedAt ('c' :: 'h' :: 'a' :: 'r' :: 'g' :: 'e' :: 'd' :: ' ' ::
      (cur.data ++ (' ' :: (x ++ '.' :: (y ++ ' ' :: ('a' :: 't' :: ' ' :: m.data)))))) =
      some (c, amountToRat (x ++ '.' :: y))
    exact findMap_cons_some chargedAt 'c' _ _
      (chargedAt_canonical c cur.data x y ('a' :: 't' :: ' ' :: m.data)
        hcur hx hxd hy hyd)
  rw [ha]
  show (match findMap chargedAt (canonicalMsg n cur a m).data with
    | some v => some v
    | none =>
      match findMap arabic1At (canonicalMsg n cur a m).data with
      | some v => some v
      | none => findMap arabic2At (canonicalMsg n cur a m).data) =
    some (c, amountToRat (x ++ '.' :: y))
  rw [hfind]

theorem fallbackAt_head (prev : Option Char) (ch : Char) (cs : List Char)
    (h : lowerEq ch 'a' = false) : fallbackAt prev (ch :: cs) = none := by
  unfold fallbackAt
  by_cases hp : prevIsWord prev = true
  · rw [if_pos hp]
  · rw [if_neg hp, matchCI_cons_neg _ _ _ _ h]

theorem fallbackAt_prevWord (p : Char) (l : List Char) (h : isWordC p = true) :
    fallbackAt (some p) l = none := by
  unfold fallbackAt
  rw [if_pos (show prevIsWord (some p) = true from h)]

/-- The fallback merchant pattern fires on `at MERCHANT` after a space: the
lazy capture runs to the end of the message when the merchant contains no
terminator character. -/
theorem fallbackAt_pos (md : List Char)
    (hne : md.dropWhile isSpaceC ≠ [])
    (hch : ∀ ch ∈ md, ch ≠ '.' ∧ ch ≠ ':' ∧ dotOk ch = true) :
    fallbackAt (some ' ') ('a' :: 't' :: ' ' :: md) =
      some (md.dropWhile isSpaceC) := by
  have hlz : lazyCap fallbackTail (md.dropWhile isSpaceC) =
      some (md.dropWhile isSpaceC) := by
    refine lazyCap_full fallbackTail (by decide) _ hne ?_ ?_
    · intro ch hch2
      exact (hch ch (mem_of_dropWhile isSpaceC md ch hch2)).2.2
    · intro s hs hsne _
      refine fallbackTail_false s hsne ?_ ?_
      · intro hcolon
        exact absurd rfl
          (hch ':' (mem_of_dropWhile isSpaceC md ':' (hs.subset hcolon))).2.1
      · intro ch hchs
        exact (hch ch (mem_of_dropWhile isSpaceC md ch (hs.subset hchs))).1
  have hci : matchCI ['a', 't'] ('a' :: 't' :: ' ' :: md) = some (' ' :: md) := by
    rw [matchCI_cons_pos _ _ _ _ (by decide), matchCI_cons_pos _ _ _ _ (by decide)]
    rfl
  have hsp : spacesThen (lazyCap fallbackTail) (' ' :: md) =
      some (md.dropWhile isSpaceC) := by
    rw [spacesThen_dropWhile (lazyCap fallbackTail) md (by rw [hlz]; rfl) ' '
      (by decide), hlz]
  unfold fallbackAt
  rw [if_neg (show ¬ prevIsWord (some ' ') = true from by decide)]
  simp only [hci, hsp]

/-- The fallback merchant scan on the canonical message: every start position
before the final `at ` marker fails (no `at` follows a non-word character
there), and the marker's capture is the merchant text. -/
theorem fallback_canonical (n cur a m : String) (x y : List Char)
    (hcur : cur.data = ['E', 'G', 'P'] ∨ cur.data = ['U', 'S', 'D'] ∨
      cur.data = ['E', 'U', 'R'])
    (hnd : ∀ ch ∈ n.data, isDigitC ch = true)
    (ha : a.data = x ++ '.' :: y)
    (hxd : ∀ ch ∈ x, isDigitC ch = true) (hyd : ∀ ch ∈ y, isDigitC ch = true)
    (hmne : m.data.dropWhile isSpaceC ≠ [])
    (hmch : ∀ ch ∈ m.data, ch ≠ '.' ∧ ch ≠ ':' ∧ dotOk ch = true) :
    findMapB fallbackAt none (canonicalMsg n cur a m).data =
      some (m.data.dropWhile isSpaceC) := by
  have hstepd : ∀ prev ch cs, isDigitC ch = true → fallbackAt prev (ch :: cs) = none :=
    fun prev ch cs h =>
      fallbackAt_head prev ch cs (lowerEq_digit_letter ch 'a' h (by decide))
  have hcurA : ∀ ch ∈ cur.data, lowerEq ch 'a' = false := by
    rcases hcur with hc | hc | hc <;> rw [hc] <;> decide
  have haA : ∀ ch ∈ a.data, lowerEq ch 'a' = false := by
    rw [ha]
    intro ch hch
    rcases List.mem_append.mp hch with hchx | hchy
    · exact lowerEq_digit_letter ch 'a' (hxd ch hchx) (by decide)
    · rcases List.mem_cons.mp hchy with rfl | hchy2
      · decide
      · exact lowerEq_digit_letter ch 'a' (hyd ch hchy2) (by decide)
  rw [canonicalMsg_data]
  show findMapB fallbackAt none ('c' :: 'r' :: 'e' :: 'd' :: 'i' :: 't' :: ' ' ::
    'c' :: 'a' :: 'r' :: 'd' :: ' ' :: '#' ::
    (n.data ++ (' ' :: (['c', 'h', 'a', 'r', 'g', 'e', 'd', ' '] ++
      (cur.data ++ (' ' :: (a.data ++ (' ' :: 'a' :: 't' :: ' ' :: m.data)))))))) =
    some (m.data.dropWhile isSpaceC)
  rw [findMapB_cons_none fallbackAt none 'c' _ (fallbackAt_head _ _ _ (by decide)),
    findMapB_cons_none fallbackAt _ 'r' _ (fallbackAt_head _ _ _ (by decide)),
    findMapB_cons_none fallbackAt _ 'e' _ (fallbackAt_head _ _ _ (by decide)),
    findMapB_cons_none fallbackAt _ 'd' _ (fallbackAt_head _ _ _ (by decide)),
    findMapB_cons_none fallbackAt _ 'i' _ (fallbackAt_head _ _ _ (by decide)),
    findMapB_cons_none fallbackAt _ 't' _ (fallbackAt_head _ _ _ (by decide)),
    findMapB_cons_none fallbackAt _ ' ' _ (fallbackAt_head _ _ _ (by decide)),
    findMapB_cons_none fallbackAt _ 'c' _ (fallbackAt_head _ _ _ (by decide)),
    findMapB_cons_none fallbackAt _ 'a' _ (fallbackAt_prevWord 'c' _ (by decide)),
    findMapB_cons_none fallbackAt _ 'r' _ (fallbackAt_head _ _ _ (by decide)),
    findMapB_cons_none fallbackAt _ 'd' _ (fallbackAt_head _ _ _ (by decide)),
    findMapB_cons_none fallbackAt _ ' ' _ (fallbackAt_head _ _ _ (by decide)),
    findMapB_cons_none fallbackAt _ '#' _ (fallbackAt_head _ _ _ (by decide))]
  obtain ⟨p1, he1, _⟩ := findMapB_skip fallbackAt (fun ch => isDigitC ch = true)
    hstepd n.data hnd (some '#')
    (' ' :: (['c', 'h', 'a', 'r', 'g', 'e', 'd', ' '] ++
      (cur.data ++ (' ' :: (a.data ++ (' ' :: 'a' :: 't' :: ' ' :: m.data))))))
  rw [he1,
    findMapB_cons_none fallbackAt p1 ' ' _ (fallbackAt_head _ _ _ (by decide))]
  show findMapB fallbackAt (some ' ') ('c' :: 'h' :: 'a' :: 'r' :: 'g' :: 'e' ::
    'd' :: ' ' :: (cur.data ++ (' ' :: (a.data ++
      (' ' :: 'a' :: 't' :: ' ' :: m.data))))) = some (m.data.dropWhile isSpaceC)
  rw [findMapB_cons_none fallbackAt _ 'c' _ (fallbackAt_head _ _ _ (by decide)),
    findMapB_cons_none fallbackAt _ 'h' _ (fallbackAt_head _ _ _ (by decide)),
    findMapB_cons_none fallbackAt _ 'a' _ (fallbackAt_prevWord 'h' _ (by decide)),
    findMapB_cons_none fallbackAt _ 'r' _ (fallbackAt_head _ _ _ (by decide)),
    findMapB_cons_none fallbackAt _ 'g' _ (fallbackAt_head _ _ _ (by decide)),
    findMapB_cons_none fallbackAt _ 'e' _ (fallbackAt_head _ _ _ (by decide)),
    findMapB_cons_none fallbackAt _ 'd' _ (fallbackAt_head _ _ _ (by decide)),
    findMapB_cons_none fallbackAt _ ' ' _ (fallbackAt_head _ _ _ (by decide))]
  obtain ⟨p2, he2, _⟩ := findMapB_skip fallbackAt (fun ch => lowerEq ch 'a' = false)
    (fun prev ch cs h => fallbackAt_head prev ch cs h) cur.data hcurA (some ' ')
    (' ' :: (a.data ++ (' ' :: 'a' :: 't' :: ' ' :: m.data)))
  rw [he2,
    findMapB_cons_none fallbackAt p2 ' ' _ (fallbackAt_head _ _ _ (by decide))]
  obtain ⟨p3, he3, _⟩ := findMapB_skip fallbackAt (fun ch => lowerEq ch 'a' = false)
    (fun prev ch cs h => fallbackAt_head prev ch cs h) a.data haA (some ' ')
    (' ' :: 'a' :: 't' :: ' ' :: m.data)
  rw [he3,
    findMapB_cons_none fallbackAt p3 ' ' _ (fallbackAt_head _ _ _ (by decide))]
  exact findMapB_cons_some fallbackAt (some ' ') 'a' _ _
    (fallbackAt_pos m.data hmne hmch)

/-- Source `parseMerchant` on the canonical message: the "on DATE" pattern
cannot match (no date separator in the message), so the fallback `at ...`
pattern fires and captures the trimmed merchant text. -/
theorem parseMerchant_canonical (n cur a m : String) (x y : List Char)
    (hcur : cur.data = ['E', 'G', 'P'] ∨ cur.data = ['U', 'S', 'D'] ∨
      cur.data = ['E', 'U', 'R'])
    (hnd : ∀ ch ∈ n.data, isDigitC ch = true)
    (ha : a.data = x ++ '.' :: y)
    (hxd : ∀ ch ∈ x, isDigitC ch = true) (hyd : ∀ ch ∈ y, isDigitC ch = true)
    (hmne : m.data.dropWhile isSpaceC ≠ [])
    (hmch : ∀ ch ∈ m.data,
      ch ≠ '.' ∧ ch ≠ ':' ∧ ch ≠ '/' ∧ ch ≠ '-' ∧ dotOk ch = true) :
    parseMerchant (canonicalMsg n cur a m) = some (trimS m.data) := by
  have hsep : ∀ ch ∈ (canonicalMsg n cur a m).data, ch ≠ '/' ∧ ch ≠ '-' := by
    rw [canonicalMsg_data]
    intro ch hch
    rcases List.mem_append.mp hch with h13 | hrest
    · simp only [List.mem_cons, List.not_mem_nil, or_false] at h13
      rcases h13 with rfl | rfl | rfl | rfl | rfl | rfl | rfl | rfl | rfl | rfl |
        rfl | rfl | rfl <;> decide
    rcases List.mem_append.mp hrest with hn1 | hrest2
    · have hd := hnd ch hn1
      exact ⟨digit_toNat_ne ch '/' hd (by decide), digit_toNat_ne ch '-' hd (by decide)⟩
    rcases List.mem_cons.mp hrest2 with rfl | hrest3
    · decide
    rcases List.mem_append.mp hrest3 with h8 | hrest4
    · simp only [List.mem_cons, List.not_mem_nil, or_false] at h8
      rcases h8 with rfl | rfl | rfl | rfl | rfl | rfl | rfl | rfl <;> decide
    rcases List.mem_append.mp hrest4 with hc1 | hrest5
    · rcases hcur with hcc | hcc | hcc <;> rw [hcc] at hc1 <;>
        simp only [List.mem_cons, List.not_mem_nil, or_false] at hc1 <;>
        rcases hc1 with rfl | rfl | rfl <;> decide
    rcases List.mem_cons.mp hrest5 with rfl | hrest6
    · decide
    rcases List.mem_append.mp hrest6 with ha1 | hrest7
    · rw [ha] at ha1
      rcases List.mem_append.mp ha1 with hax | hay
      · have hd := hxd ch hax
        exact ⟨digit_toNat_ne ch '/' hd (by decide),
          digit_toNat_ne ch '-' hd (by decide)⟩
      rcases List.mem_cons.mp hay with rfl | hay2
      · decide
      · have hd := hyd ch hay2
        exact ⟨digit_toNat_ne ch '/' hd (by decide),
          digit_toNat_ne ch '-' hd (by decide)⟩
    rcases List.mem_cons.mp hrest7 with rfl | hrest8
    · decide
    rcases List.mem_cons.mp hrest8 with rfl | hrest9
    · decide
    rcases List.mem_cons.mp hrest9 with rfl | hrest10
    · decide
    rcases List.mem_cons.mp hrest10 with rfl | hm1
    · decide
    · exact ⟨(hmch ch hm1).2.2.1, (hmch ch hm1).2.2.2.1⟩
  have honde : findMapB onDateAt none (canonicalMsg n cur a m).data = none :=
    onDate_none _ hsep
  have hfb : findMapB fallbackAt none (canonicalMsg n cur a m).data =
      some (m.data.dropWhile isSpaceC) :=
    fallback_canonical n cur a m x y hcur hnd ha hxd hyd hmne
      (fun ch hch => ⟨(hmch ch hch).1, (hmch ch hch).2.1, (hmch ch hch).2.2.2.2⟩)
  unfold parseMerchant
  simp only [honde, hfb]
  show some (trimS (m.data.dropWhile isSpaceC)) = some (trimS m.data)
  unfold trimS
  rw [trimChars_dropWhile]

theorem orNullStr_some (s : String) (h : s ≠ "") : orNullStr (some s) = some s := by
  unfold orNullStr
  split
  · rename_i heq
    cases heq
    exact absurd rfl h
  · rfl

set_option maxHeartbeats 1000000 in
/-- C1 (amended): for a canonical message `credit card #NNNN charged CUR
X.YY at MERCHANT` — NNNN four digits, CUR one of EGP/USD/EUR, X.YY a
decimal amount, MERCHANT nonblank, free of the pattern-delimiter characters
`.` `:` `/` `-` and line breaks, and the whole message not classified as a
transfer — the three regex extractors fire as specified and the assembled
transaction carries card_last4 = NNNN, originalCurrency = CUR,
originalAmount = X.YY and merchant = trim(MERCHANT); when the FX conversion
succeeds with rate r the persisted amount is X.YY·r rounded to 2 decimal
places.  (The unamended claim is refuted by `claim_C1_cex`: a MERCHANT
containing transfer vocabulary is rewritten to `Transfer`.) -/
theorem claim_C1 (env : Env) (n cur a m : String) (c : SupportedCurrency)
    (x y : List Char)
    (hn4 : n.data.length = 4) (hnd : ∀ ch ∈ n.data, isDigitC ch = true)
    (hcur : (cur.data = ['E', 'G', 'P'] ∧ c = .EGP) ∨
      (cur.data = ['U', 'S', 'D'] ∧ c = .USD) ∨ (cur.data = ['E', 'U', 'R'] ∧ c = .EUR))
    (ha : a.data = x ++ '.' :: y)
    (hx : x ≠ []) (hxd : ∀ ch ∈ x, isDigitC ch = true)
    (hy : y ≠ []) (hyd : ∀ ch ∈ y, isDigitC ch = true)
    (hmt : trimChars m.data ≠ [])
    (hmch : ∀ ch ∈ m.data,
      ch ≠ '.' ∧ ch ≠ ':' ∧ ch ≠ '/' ∧ ch ≠ '-' ∧ dotOk ch = true)
    (htr : isLikelyTransferMessage (canonicalMsg n cur a m) = false) :
    parseCardLast4 (canonicalMsg n cur a m) = some n ∧
    parseChargedAmount (canonicalMsg n cur a m) = some (c, amountToRat a.data) ∧
    parseMerchant (canonicalMsg n cur a m) = some (trimS m.data) ∧
    (handleMessage env (canonicalMsg n cur a m)).record.card_last4 = some n ∧
    (handleMessage env (canonicalMsg n cur a m)).originalCurrency = c ∧
    (handleMessage env (canonicalMsg n cur a m)).originalAmount = amountToRat a.data ∧
    (handleMessage env (canonicalMsg n cur a m)).record.merchant = trimS m.data ∧
    ∀ rate, (handleMessage env (canonicalMsg n cur a m)).fxResult = .ok rate →
      (handleMessage env (canonicalMsg n cur a m)).record.amount =
        toFixed2 (amountToRat a.data * rate) := by
  have hmne : m.data.dropWhile isSpaceC ≠ [] := by
    intro h0
    apply hmt
    unfold trimChars
    rw [h0]
    rfl
  have hcd : cur.data = ['E', 'G', 'P'] ∨ cur.data = ['U', 'S', 'D'] ∨
      cur.data = ['E', 'U', 'R'] := by
    rcases hcur with ⟨hc, _⟩ | ⟨hc, _⟩ | ⟨hc, _⟩
    · exact Or.inl hc
    · exact Or.inr (Or.inl hc)
    · exact Or.inr (Or.inr hc)
  have hpc := parseCardLast4_canonical n cur a m hn4 hnd
  have hpa := parseChargedAmount_canonical n cur a m c x y hcur hnd ha hx hxd hy hyd
  have hpm := parseMerchant_canonical n cur a m x y hcd hnd ha hxd hyd hmne hmch
  have hneq : trimS m.data ≠ "" := by
    intro h0
    exact hmt (congrArg String.data h0)
  have hn0 : n ≠ "" := by
    intro h0
    rw [h0] at hn4
    exact absurd hn4 (by decide)
  have hneedai : needAIOf (canonicalMsg n cur a m) = false := by
    unfold needAIOf
    rw [htr, hpm, hpa]
    simp [isTruthyOptStr, hneq]
  have hai : aiOf env (canonicalMsg n cur a m) = none := by
    unfold aiOf
    rw [hneedai]
    rfl
  have htd : transferDetectedOf env (canonicalMsg n cur a m) = false := by
    unfold transferDetectedOf
    rw [htr, hai]
    rfl
  have hoa : originalAmountOf env (canonicalMsg n cur a m) = amountToRat a.data := by
    unfold originalAmountOf
    rw [hpa]
    rfl
  have hoc : originalCurrencyOf env (canonicalMsg n cur a m) = c := by
    unfold originalCurrencyOf
    rw [hpa]
    rfl
  have hcn : cardNumberOf env (canonicalMsg n cur a m) = some n := by
    unfold cardNumberOf
    rw [hpc]
    rfl
  have hmf : merchantFinalOf env (canonicalMsg n cur a m) = trimS m.data := by
    unfold merchantFinalOf merchantNameOf
    rw [htd, hpm]
    rfl
  refine ⟨hpc, hpa, hpm, ?_, hoc, hoa, hmf, ?_⟩
  · show orNullStr (cardNumberOf env (canonicalMsg n cur a m)) = some n
    rw [hcn]
    exact orNullStr_some n hn0
  · intro rate hr
    have hfx : (handleMessage env (canonicalMsg n cur a m)).fxResult =
        (fxOf env (canonicalMsg n cur a m)).1 := rfl
    have hram : (handleMessage env (canonicalMsg n cur a m)).record.amount =
        amountEgpOf env (canonicalMsg n cur a m) := rfl
    rw [hfx] at hr
    rw [hram]
    unfold amountEgpOf
    simp only [hr, hoa]

/-- Witness for C1: the canonical message
`credit card #5233 charged EGP 150.00 at Starbucks` under the minimal
environment. -/
theorem claim_C1_witness :
    parseCardLast4 (canonicalMsg "5233" "EGP" "150.00" "Starbucks") = some "5233" ∧
    parseChargedAmount (canonicalMsg "5233" "EGP" "150.00" "Starbucks") =
      some (SupportedCurrency.EGP, amountToRat ("150.00" : String).data) ∧
    parseMerchant (canonicalMsg "5233" "EGP" "150.00" "Starbucks") =
      some (trimS ("Starbucks" : String).data) ∧
    (handleMessage env0
      (canonicalMsg "5233" "EGP" "150.00" "Starbucks")).record.card_last4 =
      some "5233" ∧
    (handleMessage env0
      (canonicalMsg "5233" "EGP" "150.00" "Starbucks")).originalCurrency =
      SupportedCurrency.EGP ∧
    (handleMessage env0
      (canonicalMsg "5233" "EGP" "150.00" "Starbucks")).originalAmount =
      amountToRat ("150.00" : String).data ∧
    (handleMessage env0
      (canonicalMsg "5233" "EGP" "150.00" "Starbucks")).record.merchant =
      trimS ("Starbucks" : String).data ∧
    ∀ rate, (handleMessage env0
        (canonicalMsg "5233" "EGP" "150.00" "Starbucks")).fxResult = .ok rate →
      (handleMessage env0
        (canonicalMsg "5233" "EGP" "150.00" "Starbucks")).record.amount =
        toFixed2 (amountToRat ("150.00" : String).data * rate) :=
  claim_C1 env0 "5233" "EGP" "150.00" "Starbucks" .EGP ['1', '5', '0'] ['0', '0']
    (by decide) (by decide) (Or.inl ⟨by decide, rfl⟩) (by decide) (by decide)
    (by decide) (by decide) (by decide) (by decide) (by decide) (by decide)

end BudgetApp
